import Mathlib

/-!
Verification of the qilin_core websocket hub (package `websocket`: `Hub` in
hub.go, `Client` in client.go) against its natural-language specification.

The Go code is shallowly embedded as follows:

* `uuid.UUID` values become `Nat`; `uuid.Nil` becomes `0`.
* A `*Client` pointer becomes a `Client` structure; the connection id `cid`
  is unique per connection (the Go code generates it with `uuid.New()`), so
  structure equality plays the role of pointer equality under the
  cid-injectivity hypotheses stated where needed.
* The Go maps `clients : map[uuid.UUID]map[*Client]bool` and
  `conversations : map[uuid.UUID]map[*Client]bool` become association lists
  `Tbl := List (Nat × List Client)`; presence of a key models presence of a
  map entry (so the "no empty set entry" invariant is expressible), and the
  inner list models the `map[*Client]bool` set.
* A client's buffered channel `send chan []byte` (capacity
  `sendBufferSize = 256`) becomes a `QEntry`: the list of queued payloads
  plus a close counter (`close(c.send)` increments it; Go panics on a double
  close, so the theorems track that the counter never passes 1).
* `json.Marshal` becomes the function `marshal`; serialized payloads are
  opaque `Nat`s.  Marshal calls are made observable through the `Action`
  trace that the broadcast functions emit.
* Time is `Nat` seconds: `pongWait = 60`, `staleThreshold = 300`,
  `sendTimeout = 5`.
-/

namespace QilinWS

set_option maxRecDepth 100000

/-- Marshalled payload of a message (`json.Marshal`); payloads are opaque. -/
def marshal (m : Nat) : Nat := m

/-- Capacity of a client's buffered `send` channel (`sendBufferSize = 256`). -/
def sendBufferSize : Nat := 256

/-- Staleness threshold of `cleanupStaleConnections` (5 minutes, in seconds). -/
def staleThreshold : Nat := 300

/-- Read deadline extension (`pongWait = 60 * time.Second`), in seconds. -/
def pongWait : Nat := 60

/-- Timeout of `Client.SendMessage` / `Hub.SendToClient` (5 seconds). -/
def sendTimeout : Nat := 5

/-- A websocket client connection (`*websocket.Client`).  `cid` is the unique
connection id, `userID` the identity, `conversationID` the room id (0 models
`uuid.Nil`, i.e. "no room"), `lastActivity` the activity timestamp read by the
stale sweep. -/
structure Client where
  cid : Nat
  userID : Nat
  conversationID : Nat
  lastActivity : Nat
  deriving DecidableEq, Repr

instance : Inhabited Client := ⟨⟨0, 0, 0, 0⟩⟩

/-- State of one client's bounded outbound queue (`send chan []byte`):
queued payloads plus the number of times `close` was called on it. -/
structure QEntry where
  buf : List Nat
  closeCount : Nat
  deriving DecidableEq, Repr

/-- A membership table (`map[uuid.UUID]map[*Client]bool`). -/
abbrev Tbl := List (Nat × List Client)

/-- The per-connection outbound queues, keyed by connection id. -/
abbrev Queues := List (Nat × QEntry)

/-- The hub's mutable state: the by-identity table `clients`, the by-room
table `conversations`, the outbound queues, and whether shutdown cleanup has
run. -/
structure HubState where
  clients : Tbl
  conversations : Tbl
  queues : Queues
  isShutdown : Bool
  deriving DecidableEq, Repr

/-- A fresh hub (`NewHub`). -/
def freshHub : HubState := ⟨[], [], [], false⟩

/-- Map lookup (`m[k]`, with `none` for a missing entry). -/
def tblGet (m : Tbl) (k : Nat) : Option (List Client) :=
  match m with
  | [] => none
  | (k', s) :: rest => if k = k' then some s else tblGet rest k

/-- Go's `m[k][c] = true` with creation of the inner set when the entry is
missing (the `if h.clients[k] == nil` branch of `registerClient`). -/
def tblAdd (m : Tbl) (k : Nat) (c : Client) : Tbl :=
  match m with
  | [] => [(k, [c])]
  | (k', s) :: rest =>
    if k = k' then (k', if c ∈ s then s else c :: s) :: rest
    else (k', s) :: tblAdd rest k c

/-- Membership test `_, exists := m[k][c]`. -/
def tblHas (m : Tbl) (k : Nat) (c : Client) : Bool :=
  match tblGet m k with
  | none => false
  | some s => decide (c ∈ s)

/-- The deletion performed on `h.clients` by `unregisterClient`: the delete
happens only when the client is found (`if _, exists := clients[client]`),
and the entry is removed when the set becomes empty. -/
def tblDelClients (m : Tbl) (k : Nat) (c : Client) : Tbl :=
  match m with
  | [] => []
  | (k', s) :: rest =>
    if k = k' then
      if c ∈ s then
        (if s.erase c = [] then rest else (k', s.erase c) :: rest)
      else (k', s) :: rest
    else (k', s) :: tblDelClients rest k c

/-- The deletion performed on `h.conversations` by `unregisterClient`: an
unguarded `delete(clients, client)` followed by entry removal when the set is
empty. -/
def tblDelConv (m : Tbl) (k : Nat) (c : Client) : Tbl :=
  match m with
  | [] => []
  | (k', s) :: rest =>
    if k = k' then
      (if s.erase c = [] then rest else (k', s.erase c) :: rest)
    else (k', s) :: tblDelConv rest k c

/-- Proposition: client `c` is present in table entry `m[k]`. -/
def memTbl (m : Tbl) (k : Nat) (c : Client) : Prop := tblHas m k c = true

instance (m : Tbl) (k : Nat) (c : Client) : Decidable (memTbl m k c) := by
  unfold memTbl; infer_instance

/-- Queue lookup by connection id. -/
def qGet (qs : Queues) (k : Nat) : Option QEntry :=
  match qs with
  | [] => none
  | (k', e) :: rest => if k = k' then some e else qGet rest k

/-- Queue update by connection id (replace, or append when missing). -/
def qSet (qs : Queues) (k : Nat) (e : QEntry) : Queues :=
  match qs with
  | [] => [(k, e)]
  | (k', e') :: rest =>
    if k = k' then (k', e) :: rest else (k', e') :: qSet rest k e

/-- The queue entry of connection id `k`.  A missing entry (a connection that
never existed) defaults to a closed queue, on which every enqueue fails. -/
def qEntryOf (qs : Queues) (k : Nat) : QEntry := (qGet qs k).getD ⟨[], 1⟩

/-- Whether a non-blocking send on the queue of connection `k` would succeed:
the channel is not closed and has a free slot. -/
def qHasRoom (qs : Queues) (k : Nat) : Bool :=
  decide ((qEntryOf qs k).closeCount = 0 ∧
          (qEntryOf qs k).buf.length < sendBufferSize)

/-- Non-blocking enqueue (`select case c.send <- data: default:`):
`some` of the updated queues on success, `none` when the queue is full. -/
def qTryEnqueue (qs : Queues) (k : Nat) (data : Nat) : Option Queues :=
  if qHasRoom qs k then
    some (qSet qs k ⟨(qEntryOf qs k).buf ++ [data], (qEntryOf qs k).closeCount⟩)
  else none

/-- Effect of `close(c.send)` on the queues. -/
def qClose (qs : Queues) (k : Nat) : Queues :=
  match qGet qs k with
  | some e => qSet qs k ⟨e.buf, e.closeCount + 1⟩
  | none => qs

/-- Queue entry created together with a client (`NewClient` allocates the
channel; `registerClient` itself does not touch it, so an existing entry is
kept). -/
def qInit (qs : Queues) (k : Nat) : Queues :=
  match qGet qs k with
  | some _ => qs
  | none => qSet qs k ⟨[], 0⟩

/-- `Hub.registerClient`: add the client to `clients[userID]`, and, when its
conversation id is not `uuid.Nil`, to `conversations[conversationID]`. -/
def registerClient (h : HubState) (c : Client) : HubState :=
  { h with
    clients := tblAdd h.clients c.userID c
    conversations :=
      if c.conversationID ≠ 0 then tblAdd h.conversations c.conversationID c
      else h.conversations
    queues := qInit h.queues c.cid }

/-- `Hub.unregisterClient`: remove the client from `clients[userID]` and close
its send channel when it was present there (deleting the entry when the set
becomes empty), then remove it from `conversations[conversationID]` when its
conversation id is not `uuid.Nil` (again deleting an emptied entry). -/
def unregisterClient (h : HubState) (c : Client) : HubState :=
  { h with
    clients := tblDelClients h.clients c.userID c
    conversations :=
      if c.conversationID ≠ 0 then tblDelConv h.conversations c.conversationID c
      else h.conversations
    queues :=
      if tblHas h.clients c.userID c then qClose h.queues c.cid else h.queues }

/-- Observable actions of the delivery paths: a `json.Marshal` call, a
successful non-blocking enqueue, or a drop because the queue was full. -/
inductive Action where
  | marshalAct (m : Nat)
  | enqueue (cid : Nat) (data : Nat)
  | dropFull (cid : Nat)
  deriving DecidableEq, Repr

/-- The exclusion test of `broadcastMessage`
(`broadcast.ExcludeClient != nil && client == broadcast.ExcludeClient`). -/
def excludedBy (ex : Option Client) (c : Client) : Bool :=
  match ex with
  | some e => decide (c = e)
  | none => false

/-- The member-iteration loop of `Hub.broadcastMessage`: skip the excluded
client, try a non-blocking enqueue on every other member, and collect the
members whose queue was full (the code spawns `go h.unregisterClient` for
each of those).  Returns the updated queues, the dropped clients, and the
action trace. -/
def enqueueAll (qs : Queues) (ms : List Client) (ex : Option Client)
    (data : Nat) : Queues × List Client × List Action :=
  match ms with
  | [] => (qs, [], [])
  | c :: rest =>
    if excludedBy ex c then enqueueAll qs rest ex data
    else
      match qTryEnqueue qs c.cid data with
      | some qs1 =>
        let r := enqueueAll qs1 rest ex data
        (r.1, r.2.1, Action.enqueue c.cid data :: r.2.2)
      | none =>
        let r := enqueueAll qs rest ex data
        (r.1, c :: r.2.1, Action.dropFull c.cid :: r.2.2)

/-- `Hub.broadcastMessage` up to (but not including) the spawned
unregistrations: marshal the message once, look up the room, and run the
member loop.  Returns the new state, the clients scheduled for forced
unregistration, and the action trace. -/
def broadcastCore (h : HubState) (convID : Nat) (m : Nat) (ex : Option Client) :
    HubState × List Client × List Action :=
  match tblGet h.conversations convID with
  | none => (h, [], [Action.marshalAct m])
  | some ms =>
    let r := enqueueAll h.queues ms ex (marshal m)
    ({ h with queues := r.1 }, r.2.1, Action.marshalAct m :: r.2.2)

/-- `Hub.broadcastMessage` with the spawned `go h.unregisterClient(client)`
goroutines applied at the end of the call: they block on `h.mu` until the
broadcast releases its read lock, so in the serial abstraction they take
effect immediately after the member loop. -/
def broadcastMessage (h : HubState) (convID : Nat) (m : Nat)
    (ex : Option Client) : HubState × List Action :=
  let r := broadcastCore h convID m ex
  (r.2.1.foldl unregisterClient r.1, r.2.2)

/-- A serial sequence of room broadcasts (successive `broadcast` commands
processed by the hub's command loop, with no other command in between). -/
def runBroadcasts (h : HubState) (convID : Nat) (evs : List Nat) : HubState :=
  evs.foldl (fun s e => (broadcastMessage s convID e none).1) h

/-- The member-iteration loop of `Hub.BroadcastToUser`: a non-blocking
enqueue on every connection of the identity; a full queue is only logged
(`log.Warn ... "Client send channel full"`), nothing is unregistered. -/
def enqueueAllUser (qs : Queues) (ms : List Client) (data : Nat) :
    Queues × List Action :=
  match ms with
  | [] => (qs, [])
  | c :: rest =>
    match qTryEnqueue qs c.cid data with
    | some qs1 =>
      let r := enqueueAllUser qs1 rest data
      (r.1, Action.enqueue c.cid data :: r.2)
    | none =>
      let r := enqueueAllUser qs rest data
      (r.1, Action.dropFull c.cid :: r.2)

/-- `Hub.BroadcastToUser` (the direct per-identity delivery path): marshal
once, look up `clients[userID]`, and run the member loop. -/
def broadcastToUser (h : HubState) (userID : Nat) (m : Nat) :
    HubState × List Action :=
  match tblGet h.clients userID with
  | none => (h, [Action.marshalAct m])
  | some ms =>
    let r := enqueueAllUser h.queues ms (marshal m)
    ({ h with queues := r.1 }, Action.marshalAct m :: r.2)

/-- Result of the blocking single-client send paths. -/
inductive SendRes where
  | sent
  | timeoutAfter (secs : Nat)
  | ctxCancelled
  deriving DecidableEq, Repr

/-- `Hub.SendToClient`: marshal, then a blocking send with a
`time.After(5 * time.Second)` timeout; on timeout an error is returned and
nothing else happens. -/
def sendToClient (h : HubState) (c : Client) (m : Nat) : HubState × SendRes :=
  match qTryEnqueue h.queues c.cid (marshal m) with
  | some qs => ({ h with queues := qs }, SendRes.sent)
  | none => (h, SendRes.timeoutAfter sendTimeout)

/-- `Client.SendMessage`: like `Hub.SendToClient` but with an additional
`c.ctx.Done()` case.  `ctxDone` records whether the client's context is
cancelled during the wait. -/
def sendMessageClient (h : HubState) (c : Client) (ctxDone : Bool) (m : Nat) :
    HubState × SendRes :=
  match qTryEnqueue h.queues c.cid (marshal m) with
  | some qs => ({ h with queues := qs }, SendRes.sent)
  | none =>
    if ctxDone then (h, SendRes.ctxCancelled)
    else (h, SendRes.timeoutAfter sendTimeout)

/-- All clients listed in a table. -/
def allClients (m : Tbl) : List Client := m.foldr (fun kv acc => kv.2 ++ acc) []

/-- `Hub.cleanup` (run once from the `defer` of `Hub.Run`): close the send
channel of every client in the by-identity table and replace both tables
with fresh empty maps. -/
def cleanupHub (h : HubState) : HubState :=
  { clients := []
    conversations := []
    queues := (allClients h.clients).foldl (fun qs c => qClose qs c.cid) h.queues
    isShutdown := true }

/-- `Hub.Shutdown`: `h.cancel()` makes `Hub.Run` return and run `cleanup`
exactly once; a second `Shutdown` finds the context already cancelled and has
no further effect. -/
def shutdownHub (h : HubState) : HubState :=
  if h.isShutdown then h else cleanupHub h

/-- The stale-client collection of `Hub.cleanupStaleConnections`:
all clients whose last activity is older than `staleThreshold`. -/
def staleClients (h : HubState) (now : Nat) : List Client :=
  (allClients h.clients).filter (fun c => staleThreshold < now - c.lastActivity)

/-- A register or unregister command, as processed by the `Hub.Run` loop. -/
inductive RegOp where
  | reg (c : Client)
  | unreg (c : Client)
  deriving DecidableEq, Repr

/-- Processing of one register/unregister command. -/
def applyRegOp (h : HubState) (op : RegOp) : HubState :=
  match op with
  | .reg c => registerClient h c
  | .unreg c => unregisterClient h c

/-- The hub state after a sequence of register/unregister commands starting
from a fresh hub. -/
def runRegOps (ops : List RegOp) : HubState := ops.foldl applyRegOp freshHub

/-- An interleaved-execution state: the hub plus the spawned
`go h.unregisterClient` goroutines that have not run yet (they queue behind
the hub's mutex). -/
structure Sys where
  hub : HubState
  pending : List Client
  deriving DecidableEq, Repr

/-- One schedulable step of the interleaved execution: the four command-loop
cases of `Hub.Run` (register, unregister, broadcast, sweep tick), plus
`opSpawned`, the execution of one previously spawned unregister goroutine —
which runs outside the command loop. -/
inductive SysOp where
  | opReg (c : Client)
  | opUnreg (c : Client)
  | opBcast (convID : Nat) (m : Nat) (ex : Option Client)
  | opSweep (now : Nat)
  | opSpawned
  deriving DecidableEq, Repr

/-- Whether a step is processed inside the `Hub.Run` command loop. -/
def isLoopOp : SysOp → Bool
  | .opSpawned => false
  | _ => true

/-- Effect of one step.  A broadcast enqueues and schedules its dropped
clients (`go h.unregisterClient`); a sweep schedules the stale clients the
same way; `opSpawned` runs the first scheduled goroutine. -/
def applySys (s : Sys) (op : SysOp) : Sys :=
  match op with
  | .opReg c => { s with hub := registerClient s.hub c }
  | .opUnreg c => { s with hub := unregisterClient s.hub c }
  | .opBcast convID m ex =>
    let r := broadcastCore s.hub convID m ex
    { hub := r.1, pending := s.pending ++ r.2.1 }
  | .opSweep now => { s with pending := s.pending ++ staleClients s.hub now }
  | .opSpawned =>
    match s.pending with
    | [] => s
    | c :: rest => { hub := unregisterClient s.hub c, pending := rest }

/-- Interleaved execution from a fresh hub. -/
def runSys (ops : List SysOp) : Sys := ops.foldl applySys ⟨freshHub, []⟩

/-- The two membership tables of a hub state. -/
def tablesOf (h : HubState) : Tbl × Tbl := (h.clients, h.conversations)

/-- The claim that the membership tables are mutated only by steps of the
hub's command loop: every step that changes either table is a loop step. -/
def MutationOnlyInLoop : Prop :=
  ∀ (ops : List SysOp) (op : SysOp),
    tablesOf (applySys (runSys ops) op).hub ≠ tablesOf (runSys ops).hub →
    isLoopOp op = true

/-- An inbound wire frame's decoded payload (`IncomingMessage`): the `type`
tag and an opaque content. -/
structure InMsg where
  mtype : String
  content : Nat
  deriving DecidableEq, Repr

/-- What the read pump can observe from the network, with arrival times:
a data frame (whose payload failed to decode when `none`), a pong control
frame, a transport-level read error (peer close, oversized frame,
corruption), or cancellation of the client's context. -/
inductive NetEvent where
  | frame (t : Nat) (m : Option InMsg)
  | pongEvt (t : Nat)
  | transportErr (t : Nat)
  | cancelEvt (t : Nat)
  deriving DecidableEq, Repr

/-- Outputs of the read pump towards the client and the router: an error
reply (`SendError`), the pong reply of the `"ping"` case, and the router
callbacks `HandleMessage` / `HandleTyping`. -/
inductive RAct where
  | errReply
  | pongReply
  | onMessage (m : InMsg)
  | onTyping
  deriving DecidableEq, Repr

/-- The external message router (`MessageHandler`): whether it is non-nil,
and whether its callbacks return errors. -/
structure Router where
  hasHandler : Bool
  msgErr : Bool
  typErr : Bool
  deriving DecidableEq, Repr

/-- Read pump state: the current read deadline, the `lastActivity`
timestamp, the emitted outputs, the number of unregister submissions and
`HandleDisconnect` calls performed so far, and whether the underlying
connection was closed. -/
structure RPState where
  deadline : Nat
  lastAct : Nat
  outs : List RAct
  unregs : Nat
  discs : Nat
  connClosed : Bool
  deriving DecidableEq, Repr

/-- Read pump state at the top of `ReadPump`: the initial
`SetReadDeadline(time.Now().Add(pongWait))` at time 0. -/
def initRP : RPState := ⟨pongWait, 0, [], 0, 0, false⟩

/-- The deferred exit block of `ReadPump`: submit the client to
`h.unregister`, close the connection, cancel the context, and call
`HandleDisconnect` when a handler is installed.  Runs exactly once, on every
return path. -/
def deferExit (r : Router) (st : RPState) : RPState :=
  { st with
    unregs := st.unregs + 1
    connClosed := true
    discs := if r.hasHandler then st.discs + 1 else st.discs }

/-- `Client.handleIncomingMessage`: dispatch on the `type` tag.  Known types
invoke the router (whose error, if any, makes `ReadPump` send an error
reply); `"ping"` answers with a pong; an unknown type returns an error that
`ReadPump` turns into an error reply. -/
def handleIncoming (r : Router) (m : InMsg) : List RAct :=
  if m.mtype = "message" then
    if r.hasHandler then
      RAct.onMessage m :: (if r.msgErr then [RAct.errReply] else [])
    else []
  else if m.mtype = "typing" then
    if r.hasHandler then
      RAct.onTyping :: (if r.typErr then [RAct.errReply] else [])
    else []
  else if m.mtype = "ping" then [RAct.pongReply]
  else [RAct.errReply]

/-- Result of processing one network event: either the pump keeps looping or
it has exited (through the deferred block). -/
inductive StepRes where
  | cont (st : RPState)
  | exited (st : RPState)
  deriving DecidableEq, Repr

/-- The state carried by a step result. -/
def resState : StepRes → RPState
  | .cont st => st
  | .exited st => st

/-- Whether the pump keeps looping after the step. -/
def isCont : StepRes → Bool
  | .cont _ => true
  | .exited _ => false

/-- One iteration of the `ReadPump` loop on one network event.  An event
arriving after the current deadline means `ReadMessage` failed with a
timeout, which exits the loop.  The pong handler refreshes the deadline and
the activity timestamp; a successfully received data frame only calls
`updateActivity` — the deadline is not touched.  A payload that fails to
decode sends an error reply and continues. -/
def stepRP (r : Router) (st : RPState) (e : NetEvent) : StepRes :=
  match e with
  | .cancelEvt _ => .exited (deferExit r st)
  | .transportErr _ => .exited (deferExit r st)
  | .pongEvt t =>
    if t ≤ st.deadline then
      .cont { st with deadline := t + pongWait, lastAct := t }
    else .exited (deferExit r st)
  | .frame t m =>
    if t ≤ st.deadline then
      match m with
      | none => .cont { st with lastAct := t, outs := st.outs ++ [RAct.errReply] }
      | some msg =>
        .cont { st with lastAct := t, outs := st.outs ++ handleIncoming r msg }
    else .exited (deferExit r st)

/-- Outcome of running the read pump on a finite event sequence: still
looping, or exited through the deferred block. -/
inductive RPOut where
  | running (st : RPState)
  | exited (st : RPState)
  deriving DecidableEq, Repr

/-- Run the read pump over a sequence of network events. -/
def runRP (r : Router) (st : RPState) (evs : List NetEvent) : RPOut :=
  match evs with
  | [] => .running st
  | e :: rest =>
    match stepRP r st e with
    | .cont st' => runRP r st' rest
    | .exited st' => .exited st'

/-- One `WritePump` batch: `NextWriter` takes the received message and
coalesces the `n := len(c.send)` messages already queued into the same
write. -/
def wpBatch (buf : List Nat) : List (List Nat) :=
  match buf with
  | [] => []
  | m :: rest => [m :: rest]

/-- The wire output of the write pump draining a queue with no concurrent
enqueues: the concatenation of its batches. -/
def wpDrain (buf : List Nat) : List Nat := (wpBatch buf).flatten

/-- Well-formedness of a membership table: no duplicate keys and no
duplicate client in any set (Go maps guarantee both). -/
def TblWF (m : Tbl) : Prop :=
  (m.map Prod.fst).Nodup ∧ ∀ p ∈ m, (p.2 : List Client).Nodup

instance (m : Tbl) : Decidable (TblWF m) := by
  unfold TblWF; infer_instance

/-- Injectivity of connection ids over a set of clients: distinct
connections have distinct ids (the Go code draws them from `uuid.New()`). -/
def cidInj (ms : List Client) : Prop :=
  ∀ c1 ∈ ms, ∀ c2 ∈ ms, c1.cid = c2.cid → c1 = c2

instance (ms : List Client) : Decidable (cidInj ms) := by
  unfold cidInj; infer_instance

/-- Number of `json.Marshal` calls recorded in a trace. -/
def marshalCount (acts : List Action) : Nat :=
  acts.countP (fun a => match a with | .marshalAct _ => true | _ => false)

/-- Number of enqueue attempts (successful or dropped) recorded in a trace
for the queue of connection id `cid`. -/
def attemptsFor (cid : Nat) (acts : List Action) : Nat :=
  acts.countP (fun a => match a with
    | .enqueue k _ => decide (k = cid)
    | .dropFull k => decide (k = cid)
    | _ => false)

/-- Effect of `tblAdd` on the set stored under its key. -/
def bucketAdd (o : Option (List Client)) (c : Client) : List Client :=
  match o with
  | none => [c]
  | some s => if c ∈ s then s else c :: s

/-- Effect of `tblDelClients` on the entry of its key. -/
def bucketDelC (o : Option (List Client)) (c : Client) : Option (List Client) :=
  match o with
  | none => none
  | some s =>
    if c ∈ s then (if s.erase c = [] then none else some (s.erase c))
    else some s

/-- Effect of `tblDelConv` on the entry of its key. -/
def bucketDelV (o : Option (List Client)) (c : Client) : Option (List Client) :=
  match o with
  | none => none
  | some s => if s.erase c = [] then none else some (s.erase c)

/-- The strengthened table invariant maintained by the hub's register and
unregister processing: no duplicate keys, no empty or duplicated set, every
client is filed under its own identity key, every room entry holds clients of
that room with a non-nil room id, and every room member is also present in
the by-identity table. -/
def HubInv (h : HubState) : Prop :=
  (h.clients.map Prod.fst).Nodup ∧ (h.conversations.map Prod.fst).Nodup ∧
  (∀ k s, tblGet h.clients k = some s →
    s ≠ [] ∧ s.Nodup ∧ ∀ c ∈ s, c.userID = k) ∧
  (∀ k s, tblGet h.conversations k = some s →
    s ≠ [] ∧ s.Nodup ∧
    ∀ c ∈ s, c.conversationID = k ∧ k ≠ 0 ∧ memTbl h.clients c.userID c)

/-- Client used by the concrete witness states: connection id 1, identity
10, room 100. -/
def wClient : Client := ⟨1, 10, 100, 7⟩

/-- A second witness client sharing room 100: connection id 2, identity 11. -/
def wClient2 : Client := ⟨2, 11, 100, 7⟩

/-- A queue entry that is full to capacity. -/
def wFullEntry : QEntry := ⟨List.replicate sendBufferSize 0, 0⟩

/-- A hub holding `wClient` (registered, in room 100) whose outbound queue is
full. -/
def wHubFull : HubState :=
  ⟨[(10, [wClient])], [(100, [wClient])], [(1, wFullEntry)], false⟩

/-- A hub with `wClient` and `wClient2` registered, both members of room
100, with empty queues. -/
def wHub2 : HubState :=
  ⟨[(10, [wClient]), (11, [wClient2])], [(100, [wClient2, wClient])],
   [(1, ⟨[], 0⟩), (2, ⟨[], 0⟩)], false⟩

/-! ### Lemmas about the table and queue primitives -/

theorem tblGet_eq_none (m : Tbl) (k : Nat) (h : k ∉ m.map Prod.fst) :
    tblGet m k = none := by
  induction m with
  | nil => rfl
  | cons p rest ih =>
    obtain ⟨k0, s⟩ := p
    simp only [List.map_cons, List.mem_cons] at h
    push_neg at h
    simp [tblGet, h.1, ih h.2]

theorem tblGet_mem (m : Tbl) (k : Nat) (s : List Client)
    (h : tblGet m k = some s) : (k, s) ∈ m := by
  induction m with
  | nil => simp [tblGet] at h
  | cons p rest ih =>
    obtain ⟨k0, s0⟩ := p
    by_cases hk : k = k0
    · subst hk
      have h2 : s0 = s := by simpa [tblGet] using h
      subst h2
      exact List.mem_cons_self _ _
    · exact List.mem_cons_of_mem _ (ih (by simpa [tblGet, hk] using h))

theorem tblGet_tblAdd (m : Tbl) (k k' : Nat) (c : Client) :
    tblGet (tblAdd m k c) k' =
      if k' = k then some (bucketAdd (tblGet m k) c) else tblGet m k' := by
  induction m with
  | nil =>
    by_cases h : k' = k <;> simp [tblAdd, tblGet, bucketAdd, h]
  | cons p rest ih =>
    obtain ⟨k0, s⟩ := p
    by_cases hk : k = k0
    · subst hk
      by_cases h' : k' = k
      · subst h'; simp [tblAdd, tblGet, bucketAdd]
      · simp [tblAdd, tblGet, h']
    · by_cases h' : k' = k0
      · subst h'
        have hne : ¬k' = k := fun hh => hk hh.symm
        simp [tblAdd, tblGet, hk, hne]
      · simp [tblAdd, tblGet, hk, h', ih]

theorem tblGet_tblDelClients (m : Tbl) (k k' : Nat) (c : Client)
    (hnd : (m.map Prod.fst).Nodup) :
    tblGet (tblDelClients m k c) k' =
      if k' = k then bucketDelC (tblGet m k) c else tblGet m k' := by
  induction m with
  | nil => by_cases h : k' = k <;> simp [tblDelClients, tblGet, bucketDelC, h]
  | cons p rest ih =>
    obtain ⟨k0, s⟩ := p
    simp only [List.map_cons, List.nodup_cons] at hnd
    by_cases hk : k = k0
    · subst hk
      have hrest : tblGet rest k = none := tblGet_eq_none rest k hnd.1
      by_cases hmem : c ∈ s
      · by_cases hemp : s.erase c = []
        · by_cases h' : k' = k
          · subst h'
            simp [tblDelClients, tblGet, bucketDelC, hmem, hemp, hrest]
          · simp [tblDelClients, tblGet, bucketDelC, hmem, hemp, h']
        · by_cases h' : k' = k
          · subst h'
            simp [tblDelClients, tblGet, bucketDelC, hmem, hemp]
          · simp [tblDelClients, tblGet, bucketDelC, hmem, hemp, h']
      · by_cases h' : k' = k
        · subst h'
          simp [tblDelClients, tblGet, bucketDelC, hmem]
        · simp [tblDelClients, tblGet, bucketDelC, hmem, h']
    · by_cases h' : k' = k0
      · subst h'
        have hne : ¬k' = k := fun hh => hk hh.symm
        simp [tblDelClients, tblGet, hk, hne]
      · simp [tblDelClients, tblGet, hk, h', ih hnd.2]

theorem tblGet_tblDelConv (m : Tbl) (k k' : Nat) (c : Client)
    (hnd : (m.map Prod.fst).Nodup) :
    tblGet (tblDelConv m k c) k' =
      if k' = k then bucketDelV (tblGet m k) c else tblGet m k' := by
  induction m with
  | nil => by_cases h : k' = k <;> simp [tblDelConv, tblGet, bucketDelV, h]
  | cons p rest ih =>
    obtain ⟨k0, s⟩ := p
    simp only [List.map_cons, List.nodup_cons] at hnd
    by_cases hk : k = k0
    · subst hk
      have hrest : tblGet rest k = none := tblGet_eq_none rest k hnd.1
      by_cases hemp : s.erase c = []
      · by_cases h' : k' = k
        · subst h'
          simp [tblDelConv, tblGet, bucketDelV, hemp, hrest]
        · simp [tblDelConv, tblGet, bucketDelV, hemp, h']
      · by_cases h' : k' = k
        · subst h'
          simp [tblDelConv, tblGet, bucketDelV, hemp]
        · simp [tblDelConv, tblGet, bucketDelV, hemp, h']
    · by_cases h' : k' = k0
      · subst h'
        have hne : ¬k' = k := fun hh => hk hh.symm
        simp [tblDelConv, tblGet, hk, hne]
      · simp [tblDelConv, tblGet, hk, h', ih hnd.2]

theorem tblAdd_keys (m : Tbl) (k : Nat) (c : Client) :
    (tblAdd m k c).map Prod.fst =
      if k ∈ m.map Prod.fst then m.map Prod.fst
      else m.map Prod.fst ++ [k] := by
  induction m with
  | nil => simp [tblAdd]
  | cons p rest ih =>
    obtain ⟨k0, s⟩ := p
    by_cases hk : k = k0
    · subst hk
      simp [tblAdd]
    · by_cases hmem : k ∈ rest.map Prod.fst
      · simp [tblAdd, hk, ih, hmem]
      · simp [tblAdd, hk, ih, hmem]

theorem tblAdd_keys_nodup (m : Tbl) (k : Nat) (c : Client)
    (hnd : (m.map Prod.fst).Nodup) :
    ((tblAdd m k c).map Prod.fst).Nodup := by
  rw [tblAdd_keys]
  by_cases hmem : k ∈ m.map Prod.fst
  · simpa [hmem] using hnd
  · rw [if_neg hmem, List.nodup_append]
    exact ⟨hnd, List.nodup_singleton _, by
      intro a ha hb
      simp only [List.mem_singleton] at hb
      subst hb
      exact hmem ha⟩

theorem tblDelClients_keys_sublist (m : Tbl) (k : Nat) (c : Client) :
    List.Sublist ((tblDelClients m k c).map Prod.fst) (m.map Prod.fst) := by
  induction m with
  | nil => simp [tblDelClients]
  | cons p rest ih =>
    obtain ⟨k0, s⟩ := p
    by_cases hk : k = k0
    · subst hk
      by_cases hmem : c ∈ s
      · by_cases hemp : s.erase c = []
        · simp only [tblDelClients, if_pos rfl, if_pos hmem, if_pos hemp,
            List.map_cons]
          exact List.sublist_cons_self _ _
        · simp [tblDelClients, hmem, hemp]
      · simp [tblDelClients, hmem]
    · simp only [tblDelClients, if_neg hk, List.map_cons]
      exact ih.cons₂ k0

theorem tblDelConv_keys_sublist (m : Tbl) (k : Nat) (c : Client) :
    List.Sublist ((tblDelConv m k c).map Prod.fst) (m.map Prod.fst) := by
  induction m with
  | nil => simp [tblDelConv]
  | cons p rest ih =>
    obtain ⟨k0, s⟩ := p
    by_cases hk : k = k0
    · subst hk
      by_cases hemp : s.erase c = []
      · simp only [tblDelConv, if_pos rfl, if_pos hemp, List.map_cons]
        exact List.sublist_cons_self _ _
      · simp [tblDelConv, hemp]
    · simp only [tblDelConv, if_neg hk, List.map_cons]
      exact ih.cons₂ k0

theorem qGet_qSet (qs : Queues) (k k' : Nat) (e : QEntry) :
    qGet (qSet qs k e) k' = if k' = k then some e else qGet qs k' := by
  induction qs with
  | nil => by_cases h : k' = k <;> simp [qSet, qGet, h]
  | cons p rest ih =>
    obtain ⟨k0, e0⟩ := p
    by_cases hk : k = k0
    · subst hk
      by_cases h' : k' = k <;> simp [qSet, qGet, h']
    · by_cases h' : k' = k0
      · subst h'
        have hne : ¬k' = k := fun hh => hk hh.symm
        simp [qSet, qGet, hk, hne]
      · simp [qSet, qGet, hk, h', ih]

theorem qGet_qClose_ne (qs : Queues) (k k' : Nat) (h : k' ≠ k) :
    qGet (qClose qs k) k' = qGet qs k' := by
  unfold qClose
  cases hq : qGet qs k with
  | none => rfl
  | some e => simp [qGet_qSet, h]

theorem qEntryOf_qSet (qs : Queues) (k k' : Nat) (e : QEntry) :
    qEntryOf (qSet qs k e) k' = if k' = k then e else qEntryOf qs k' := by
  unfold qEntryOf
  rw [qGet_qSet]
  by_cases h : k' = k <;> simp [h]

theorem memTbl_iff (m : Tbl) (k : Nat) (c : Client) :
    memTbl m k c ↔ ∃ s, tblGet m k = some s ∧ c ∈ s := by
  unfold memTbl tblHas
  cases h : tblGet m k with
  | none => simp
  | some s => simp [h]

theorem mem_bucketAdd_self (o : Option (List Client)) (c : Client) :
    c ∈ bucketAdd o c := by
  cases o with
  | none => simp [bucketAdd]
  | some s =>
    by_cases h : c ∈ s <;> simp [bucketAdd, h]

theorem mem_bucketAdd_of_mem (s : List Client) (a c : Client) (h : a ∈ s) :
    a ∈ bucketAdd (some s) c := by
  by_cases hc : c ∈ s <;> simp [bucketAdd, hc, h]

theorem mem_of_mem_bucketAdd (o : Option (List Client)) (a c : Client)
    (h : a ∈ bucketAdd o c) : a = c ∨ ∃ s, o = some s ∧ a ∈ s := by
  cases o with
  | none => simpa [bucketAdd] using h
  | some s =>
    by_cases hc : c ∈ s
    · simp only [bucketAdd, if_pos hc] at h
      exact Or.inr ⟨s, rfl, h⟩
    · simp only [bucketAdd, if_neg hc, List.mem_cons] at h
      rcases h with h | h
      · exact Or.inl h
      · exact Or.inr ⟨s, rfl, h⟩

theorem bucketAdd_ne_nil (o : Option (List Client)) (c : Client) :
    bucketAdd o c ≠ [] := by
  cases o with
  | none => simp [bucketAdd]
  | some s =>
    by_cases h : c ∈ s
    · simp only [bucketAdd, if_pos h]
      exact List.ne_nil_of_mem h
    · simp [bucketAdd, h]

theorem bucketAdd_nodup (o : Option (List Client)) (c : Client)
    (h : ∀ s, o = some s → s.Nodup) : (bucketAdd o c).Nodup := by
  cases o with
  | none => simp [bucketAdd]
  | some s =>
    by_cases hc : c ∈ s
    · simpa [bucketAdd, hc] using h s rfl
    · simp [bucketAdd, hc, h s rfl]

theorem memTbl_tblAdd_self (m : Tbl) (k : Nat) (c : Client) :
    memTbl (tblAdd m k c) k c := by
  rw [memTbl_iff]
  exact ⟨bucketAdd (tblGet m k) c, by rw [tblGet_tblAdd]; simp,
    mem_bucketAdd_self _ _⟩

theorem memTbl_tblAdd_mono (m : Tbl) (k k' : Nat) (a c : Client)
    (h : memTbl m k a) : memTbl (tblAdd m k' c) k a := by
  rw [memTbl_iff] at h ⊢
  obtain ⟨s, hs, hmem⟩ := h
  by_cases hk : k = k'
  · subst hk
    exact ⟨bucketAdd (tblGet m k) c, by rw [tblGet_tblAdd]; simp,
      by rw [hs]; exact mem_bucketAdd_of_mem s a c hmem⟩
  · exact ⟨s, by rw [tblGet_tblAdd]; simpa [hk] using hs, hmem⟩

theorem memTbl_tblDelClients_of_ne (m : Tbl) (k k' : Nat) (a c : Client)
    (hnd : (m.map Prod.fst).Nodup) (hne : a ≠ c) (h : memTbl m k' a) :
    memTbl (tblDelClients m k c) k' a := by
  rw [memTbl_iff] at h ⊢
  obtain ⟨s, hs, hmem⟩ := h
  rw [tblGet_tblDelClients m k k' c hnd] at *
  by_cases hk : k' = k
  · subst hk
    rw [hs]
    by_cases hc : c ∈ s
    · have hmem' : a ∈ s.erase c := List.mem_erase_of_ne hne |>.mpr hmem
      have hnn : s.erase c ≠ [] := List.ne_nil_of_mem hmem'
      exact ⟨s.erase c, by simp [bucketDelC, hc, hnn], hmem'⟩
    · exact ⟨s, by simp [bucketDelC, hc], hmem⟩
  · exact ⟨s, by simp [hk, hs], hmem⟩

theorem hubInv_fresh : HubInv freshHub := by
  refine ⟨List.nodup_nil, List.nodup_nil, ?_, ?_⟩ <;>
    intro k s h <;> simp [freshHub, tblGet] at h

theorem hubInv_register (h : HubState) (c : Client) (hi : HubInv h) :
    HubInv (registerClient h c) := by
  obtain ⟨hndC, hndV, hC, hV⟩ := hi
  unfold registerClient
  refine ⟨tblAdd_keys_nodup _ _ _ hndC, ?_, ?_, ?_⟩
  · by_cases hcv : c.conversationID ≠ 0
    · simpa [hcv] using tblAdd_keys_nodup _ _ _ hndV
    · simpa [hcv] using hndV
  · intro k s hs
    simp only at hs
    rw [tblGet_tblAdd] at hs
    by_cases hk : k = c.userID
    · subst hk
      rw [if_pos rfl] at hs
      obtain rfl : bucketAdd (tblGet h.clients c.userID) c = s :=
        Option.some.inj hs
      refine ⟨bucketAdd_ne_nil _ _, bucketAdd_nodup _ _ ?_, ?_⟩
      · intro s0 hs0
        exact (hC _ _ hs0).2.1
      · intro a ha
        rcases mem_of_mem_bucketAdd _ _ _ ha with rfl | ⟨s0, hs0, ha0⟩
        · rfl
        · exact (hC _ _ hs0).2.2 a ha0
    · rw [if_neg hk] at hs
      exact hC _ _ hs
  · intro k s hs
    simp only at hs ⊢
    by_cases hcv : c.conversationID ≠ 0
    · rw [if_pos hcv] at hs
      rw [tblGet_tblAdd] at hs
      by_cases hk : k = c.conversationID
      · subst hk
        rw [if_pos rfl] at hs
        obtain rfl : bucketAdd (tblGet h.conversations c.conversationID) c = s :=
          Option.some.inj hs
        refine ⟨bucketAdd_ne_nil _ _, bucketAdd_nodup _ _ ?_, ?_⟩
        · intro s0 hs0
          exact (hV _ _ hs0).2.1
        · intro a ha
          rcases mem_of_mem_bucketAdd _ _ _ ha with rfl | ⟨s0, hs0, ha0⟩
          · exact ⟨rfl, hcv, memTbl_tblAdd_self _ _ _⟩
          · obtain ⟨h1, h2, h3⟩ := (hV _ _ hs0).2.2 a ha0
            exact ⟨h1, h2, memTbl_tblAdd_mono _ _ _ _ _ h3⟩
      · rw [if_neg hk] at hs
        obtain ⟨h1, h2, h3⟩ := hV _ _ hs
        refine ⟨h1, h2, fun a ha => ?_⟩
        obtain ⟨ha1, ha2, ha3⟩ := h3 a ha
        exact ⟨ha1, ha2, memTbl_tblAdd_mono _ _ _ _ _ ha3⟩
    · rw [if_neg hcv] at hs
      obtain ⟨h1, h2, h3⟩ := hV _ _ hs
      refine ⟨h1, h2, fun a ha => ?_⟩
      obtain ⟨ha1, ha2, ha3⟩ := h3 a ha
      exact ⟨ha1, ha2, memTbl_tblAdd_mono _ _ _ _ _ ha3⟩

theorem hubInv_unregister (h : HubState) (c : Client) (hi : HubInv h) :
    HubInv (unregisterClient h c) := by
  obtain ⟨hndC, hndV, hC, hV⟩ := hi
  unfold unregisterClient
  refine ⟨(tblDelClients_keys_sublist _ _ _).nodup hndC, ?_, ?_, ?_⟩
  · by_cases hcv : c.conversationID ≠ 0
    · simpa [hcv] using (tblDelConv_keys_sublist _ _ _).nodup hndV
    · simpa [hcv] using hndV
  · intro k s hs
    simp only at hs
    rw [tblGet_tblDelClients _ _ _ _ hndC] at hs
    by_cases hk : k = c.userID
    · subst hk
      rw [if_pos rfl] at hs
      cases ho : tblGet h.clients c.userID with
      | none => rw [ho] at hs; simp [bucketDelC] at hs
      | some s0 =>
        rw [ho] at hs
        obtain ⟨h1, h2, h3⟩ := hC _ _ ho
        by_cases hc : c ∈ s0
        · by_cases hemp : s0.erase c = []
          · simp [bucketDelC, hc, hemp] at hs
          · simp only [bucketDelC, if_pos hc, if_neg hemp,
              Option.some.injEq] at hs
            subst hs
            exact ⟨hemp, h2.erase c, fun a ha =>
              h3 a (List.mem_of_mem_erase ha)⟩
        · simp only [bucketDelC, if_neg hc, Option.some.injEq] at hs
          subst hs
          exact ⟨h1, h2, h3⟩
    · rw [if_neg hk] at hs
      exact hC _ _ hs
  · intro k s hs
    simp only at hs ⊢
    by_cases hcv : c.conversationID ≠ 0
    · rw [if_pos hcv] at hs
      rw [tblGet_tblDelConv _ _ _ _ hndV] at hs
      by_cases hk : k = c.conversationID
      · subst hk
        rw [if_pos rfl] at hs
        cases ho : tblGet h.conversations c.conversationID with
        | none => rw [ho] at hs; simp [bucketDelV] at hs
        | some s0 =>
          rw [ho] at hs
          obtain ⟨h1, h2, h3⟩ := hV _ _ ho
          by_cases hemp : s0.erase c = []
          · simp [bucketDelV, hemp] at hs
          · simp only [bucketDelV, if_neg hemp, Option.some.injEq] at hs
            subst hs
            refine ⟨hemp, h2.erase c, fun a ha => ?_⟩
            have hane : a ≠ c := (h2.mem_erase_iff.mp ha).1
            have ha0 : a ∈ s0 := List.mem_of_mem_erase ha
            obtain ⟨ha1, ha2, ha3⟩ := h3 a ha0
            exact ⟨ha1, ha2,
              memTbl_tblDelClients_of_ne _ _ _ _ _ hndC hane ha3⟩
      · rw [if_neg hk] at hs
        obtain ⟨h1, h2, h3⟩ := hV _ _ hs
        refine ⟨h1, h2, fun a ha => ?_⟩
        obtain ⟨ha1, ha2, ha3⟩ := h3 a ha
        have hane : a ≠ c := fun he =>
          hk (by rw [← ha1, he])
        exact ⟨ha1, ha2,
          memTbl_tblDelClients_of_ne _ _ _ _ _ hndC hane ha3⟩
    · rw [if_neg hcv] at hs
      push_neg at hcv
      obtain ⟨h1, h2, h3⟩ := hV _ _ hs
      refine ⟨h1, h2, fun a ha => ?_⟩
      obtain ⟨ha1, ha2, ha3⟩ := h3 a ha
      have hane : a ≠ c := fun he => ha2 (by rw [← ha1, he, hcv])
      exact ⟨ha1, ha2,
        memTbl_tblDelClients_of_ne _ _ _ _ _ hndC hane ha3⟩

theorem hubInv_runRegOps (ops : List RegOp) : HubInv (runRegOps ops) := by
  suffices hgen : ∀ (h : HubState), HubInv h → HubInv (ops.foldl applyRegOp h) by
    exact hgen freshHub hubInv_fresh
  induction ops with
  | nil => intro h hi; exact hi
  | cons op rest ih =>
    intro h hi
    cases op with
    | reg c => exact ih _ (hubInv_register h c hi)
    | unreg c => exact ih _ (hubInv_unregister h c hi)

theorem tblDelClients_of_not_mem_keys (m : Tbl) (k : Nat) (c : Client)
    (h : k ∉ m.map Prod.fst) : tblDelClients m k c = m := by
  induction m with
  | nil => rfl
  | cons p rest ih =>
    obtain ⟨k0, s⟩ := p
    simp only [List.map_cons, List.mem_cons] at h
    push_neg at h
    simp [tblDelClients, h.1, ih h.2]

theorem tblDelConv_of_not_mem_keys (m : Tbl) (k : Nat) (c : Client)
    (h : k ∉ m.map Prod.fst) : tblDelConv m k c = m := by
  induction m with
  | nil => rfl
  | cons p rest ih =>
    obtain ⟨k0, s⟩ := p
    simp only [List.map_cons, List.mem_cons] at h
    push_neg at h
    simp [tblDelConv, h.1, ih h.2]

theorem tblDelClients_idem (m : Tbl) (k : Nat) (c : Client) (hwf : TblWF m) :
    tblDelClients (tblDelClients m k c) k c = tblDelClients m k c := by
  obtain ⟨hkeys, hbkt⟩ := hwf
  induction m with
  | nil => rfl
  | cons p rest ih =>
    obtain ⟨k0, s⟩ := p
    simp only [List.map_cons, List.nodup_cons] at hkeys
    have hsnd : s.Nodup := hbkt (k0, s) (List.mem_cons_self _ _)
    by_cases hk : k = k0
    · subst hk
      by_cases hc : c ∈ s
      · by_cases hemp : s.erase c = []
        · simp only [tblDelClients, if_pos rfl, if_pos hc, if_pos hemp]
          exact tblDelClients_of_not_mem_keys rest k c hkeys.1
        · have hnm : c ∉ s.erase c := hsnd.not_mem_erase
          simp [tblDelClients, hc, hemp, hnm]
      · simp [tblDelClients, hc]
    · simp only [tblDelClients, if_neg hk]
      rw [ih hkeys.2 (fun p hp => hbkt p (List.mem_cons_of_mem _ hp))]

theorem tblDelConv_idem (m : Tbl) (k : Nat) (c : Client) (hwf : TblWF m) :
    tblDelConv (tblDelConv m k c) k c = tblDelConv m k c := by
  obtain ⟨hkeys, hbkt⟩ := hwf
  induction m with
  | nil => rfl
  | cons p rest ih =>
    obtain ⟨k0, s⟩ := p
    simp only [List.map_cons, List.nodup_cons] at hkeys
    have hsnd : s.Nodup := hbkt (k0, s) (List.mem_cons_self _ _)
    by_cases hk : k = k0
    · subst hk
      by_cases hemp : s.erase c = []
      · simp only [tblDelConv, if_pos rfl, if_pos hemp]
        exact tblDelConv_of_not_mem_keys rest k c hkeys.1
      · have hnm : c ∉ s.erase c := by
          by_cases hc : c ∈ s
          · exact hsnd.not_mem_erase
          · rw [List.erase_of_not_mem hc]; exact hc
        simp [tblDelConv, hemp, List.erase_of_not_mem hnm]
    · simp only [tblDelConv, if_neg hk]
      rw [ih hkeys.2 (fun p hp => hbkt p (List.mem_cons_of_mem _ hp))]

theorem tblHas_tblDelClients_self (m : Tbl) (k : Nat) (c : Client)
    (hwf : TblWF m) : tblHas (tblDelClients m k c) k c = false := by
  obtain ⟨hkeys, hbkt⟩ := hwf
  unfold tblHas
  rw [tblGet_tblDelClients m k k c hkeys, if_pos rfl]
  cases ho : tblGet m k with
  | none => simp [bucketDelC]
  | some s =>
    have hsnd : s.Nodup := hbkt (k, s) (tblGet_mem m k s ho)
    by_cases hc : c ∈ s
    · by_cases hemp : s.erase c = []
      · simp [bucketDelC, hc, hemp]
      · simp [bucketDelC, hc, hemp, hsnd.not_mem_erase]
    · simp [bucketDelC, hc]

/-- C1: for every sequence of register and unregister operations starting
from a fresh hub, neither membership table ever maps a key to an empty set
(removing the last connection of an identity or of a room deletes the
entry), every connection present in a by-room entry is also present in the
by-identity entry of its own identity, and a connection appears in the
by-room table only with a non-nil room id. -/
theorem c1_tables_invariant (ops : List RegOp) :
    (∀ k s, tblGet (runRegOps ops).clients k = some s → s ≠ []) ∧
    (∀ k s, tblGet (runRegOps ops).conversations k = some s →
      s ≠ [] ∧ ∀ c ∈ s, memTbl (runRegOps ops).clients c.userID c ∧
        c.conversationID ≠ 0) := by
  obtain ⟨hndC, hndV, hC, hV⟩ := hubInv_runRegOps ops
  refine ⟨fun k s hs => (hC k s hs).1, fun k s hs => ?_⟩
  obtain ⟨h1, h2, h3⟩ := hV k s hs
  refine ⟨h1, fun c hc => ?_⟩
  obtain ⟨hc1, hc2, hc3⟩ := h3 c hc
  exact ⟨hc3, by rw [hc1]; exact hc2⟩

/-- Witness instantiating `c1_tables_invariant` on the concrete one-step
sequence registering `wClient`. -/
theorem c1_tables_invariant_witness :
    ([wClient] : List Client) ≠ [] ∧
    memTbl (runRegOps [RegOp.reg wClient]).clients wClient.userID wClient ∧
    wClient.conversationID ≠ 0 := by
  have h := (c1_tables_invariant [RegOp.reg wClient]).2 100 [wClient]
    (by decide)
  exact ⟨h.1, (h.2 wClient (by decide)).1, (h.2 wClient (by decide)).2⟩

/-- C9: unregistration is idempotent — a second `unregisterClient` on the
same connection changes nothing (in particular the outbound queue is not
closed a second time, tracked by the close counter inside the state) — and
`Shutdown` is idempotent: a second shutdown changes nothing (every queue is
closed at most once and both tables stay cleared). -/
theorem c9_unregister_shutdown_idempotent (h : HubState) (c : Client)
    (hwc : TblWF h.clients) (hwv : TblWF h.conversations) :
    unregisterClient (unregisterClient h c) c = unregisterClient h c ∧
    shutdownHub (shutdownHub h) = shutdownHub h := by
  constructor
  · have hqueues :
        tblHas (tblDelClients h.clients c.userID c) c.userID c = false :=
      tblHas_tblDelClients_self h.clients c.userID c hwc
    unfold unregisterClient
    simp only [hqueues, Bool.false_eq_true, if_false]
    rw [tblDelClients_idem _ _ _ hwc]
    by_cases hcv : c.conversationID ≠ 0
    · simp only [if_pos hcv]
      rw [tblDelConv_idem _ _ _ hwv]
    · simp only [if_neg hcv]
  · by_cases hsd : h.isShutdown
    · simp [shutdownHub, hsd]
    · simp [shutdownHub, hsd, cleanupHub]

/-- Witness instantiating `c9_unregister_shutdown_idempotent` on a concrete
hub holding the registered client `wClient`. -/
theorem c9_unregister_shutdown_idempotent_witness :
    TblWF (runRegOps [RegOp.reg wClient]).clients ∧
    TblWF (runRegOps [RegOp.reg wClient]).conversations ∧
    unregisterClient (unregisterClient (runRegOps [RegOp.reg wClient]) wClient)
        wClient =
      unregisterClient (runRegOps [RegOp.reg wClient]) wClient ∧
    shutdownHub (shutdownHub (runRegOps [RegOp.reg wClient])) =
      shutdownHub (runRegOps [RegOp.reg wClient]) := by
  have h := c9_unregister_shutdown_idempotent (runRegOps [RegOp.reg wClient])
    wClient (by decide) (by decide)
  exact ⟨by decide, by decide, h.1, h.2⟩

/-- C3 counterexample: the claim that the membership tables are mutated only
inside the command loop is false — `cleanupStaleConnections` (and likewise
`broadcastMessage`) spawns `go h.unregisterClient(client)` goroutines, and
the goroutine's table mutation is a step outside the loop.  Concretely,
after registering `wClient` and running a sweep at time 1000, the spawned
unregister step mutates the tables while not being a loop step. -/
theorem c3_counterexample : ¬ MutationOnlyInLoop := by
  intro hcl
  have h := hcl [SysOp.opReg wClient, SysOp.opSweep 1000] SysOp.opSpawned
    (by decide)
  exact absurd h (by decide)

/-- C3 amended: every step that mutates a membership table is either a
command-loop step (register, unregister, broadcast, sweep) or the execution
of a spawned unregister goroutine for the first scheduled dropped/stale
client; the mutex serializes those goroutines with the loop, so each
transition stays atomic with respect to each broadcast decision. -/
theorem c3_mutations_loop_or_spawned (ops : List SysOp) (op : SysOp)
    (hmut : tablesOf (applySys (runSys ops) op).hub ≠
      tablesOf (runSys ops).hub) :
    isLoopOp op = true ∨
      (op = SysOp.opSpawned ∧ (runSys ops).pending ≠ [] ∧
        (applySys (runSys ops) op).hub =
          unregisterClient (runSys ops).hub (runSys ops).pending.headI) := by
  cases op with
  | opReg c => exact Or.inl rfl
  | opUnreg c => exact Or.inl rfl
  | opBcast a b e => exact Or.inl rfl
  | opSweep n => exact Or.inl rfl
  | opSpawned =>
    refine Or.inr ⟨rfl, ?_, ?_⟩
    · intro hp
      apply hmut
      simp [applySys, hp]
    · cases hp : (runSys ops).pending with
      | nil =>
        exact absurd (by simp [applySys, hp]) hmut
      | cons c rest =>
        simp [applySys, hp]

/-- Witness instantiating `c3_mutations_loop_or_spawned` on the mutating
register step from the fresh hub. -/
theorem c3_mutations_loop_or_spawned_witness :
    tablesOf (applySys (runSys []) (SysOp.opReg wClient)).hub ≠
      tablesOf (runSys []).hub ∧
    (isLoopOp (SysOp.opReg wClient) = true ∨
      (SysOp.opReg wClient = SysOp.opSpawned ∧ (runSys []).pending ≠ [] ∧
        (applySys (runSys []) (SysOp.opReg wClient)).hub =
          unregisterClient (runSys []).hub (runSys []).pending.headI)) :=
  ⟨by decide, c3_mutations_loop_or_spawned [] (SysOp.opReg wClient) (by decide)⟩

/-- C4 counterexample: a successfully received data frame does not refresh
the read deadline.  At pump start the deadline is `pongWait = 60`; after a
frame arriving at time 5 the deadline is still 60, not `5 + pongWait`
as the claim states. -/
theorem c4_counterexample :
    (resState (stepRP ⟨true, false, false⟩ initRP
        (NetEvent.frame 5 none))).deadline = pongWait ∧
    pongWait ≠ 5 + pongWait := by decide

/-- C4 amended: the read deadline is set at pump start and refreshed on
every pong (to arrival time plus `pongWait`); a successfully received frame
refreshes only the `lastActivity` timestamp and leaves the deadline
unchanged; and an event past the deadline fails the read, exiting the pump
through the deferred block, which closes the connection and submits the
unregistration. -/
theorem c4_deadline_behavior (r : Router) (st : RPState) (t t' : Nat)
    (m : Option InMsg) (hin : t ≤ st.deadline) (hexp : st.deadline < t') :
    stepRP r st (NetEvent.pongEvt t) =
      StepRes.cont { st with deadline := t + pongWait, lastAct := t } ∧
    isCont (stepRP r st (NetEvent.frame t m)) = true ∧
    (resState (stepRP r st (NetEvent.frame t m))).deadline = st.deadline ∧
    (resState (stepRP r st (NetEvent.frame t m))).lastAct = t ∧
    stepRP r st (NetEvent.frame t' m) = StepRes.exited (deferExit r st) ∧
    (deferExit r st).connClosed = true ∧
    (deferExit r st).unregs = st.unregs + 1 := by
  have hnot : ¬ t' ≤ st.deadline := by omega
  refine ⟨by simp [stepRP, hin], ?_, ?_, ?_, by simp [stepRP, hnot], rfl, rfl⟩
  · cases m <;> simp [stepRP, hin, isCont]
  · cases m <;> simp [stepRP, hin, resState]
  · cases m <;> simp [stepRP, hin, resState]

/-- Witness instantiating `c4_deadline_behavior` at pump start with events
at time 5 and an expired event at time 70. -/
theorem c4_deadline_behavior_witness :
    (5 ≤ initRP.deadline ∧ initRP.deadline < 70) ∧
    (deferExit ⟨true, false, false⟩ initRP).connClosed = true ∧
    (deferExit ⟨true, false, false⟩ initRP).unregs = initRP.unregs + 1 ∧
    (resState (stepRP ⟨true, false, false⟩ initRP
        (NetEvent.frame 5 none))).deadline = initRP.deadline := by
  have h := c4_deadline_behavior ⟨true, false, false⟩ initRP 5 70 none
    (by decide) (by decide)
  exact ⟨⟨by decide, by decide⟩, h.2.2.2.2.2.1, h.2.2.2.2.2.2, h.2.2.1⟩

/-- C7: a frame received within the size limit whose payload fails to decode
produces an error reply on the same connection and the read loop continues;
a payload decoding to an unrecognized event type likewise produces an error
reply and the loop continues; and a transport-level violation (which is how
an oversized frame surfaces, as a `ReadMessage` error) terminates the pump. -/
theorem c7_recoverable_errors (r : Router) (st : RPState) (t : Nat)
    (m : InMsg) (hin : t ≤ st.deadline)
    (hunk : m.mtype ≠ "message" ∧ m.mtype ≠ "typing" ∧ m.mtype ≠ "ping") :
    stepRP r st (NetEvent.frame t none) =
      StepRes.cont { st with lastAct := t, outs := st.outs ++ [RAct.errReply] } ∧
    stepRP r st (NetEvent.frame t (some m)) =
      StepRes.cont { st with lastAct := t, outs := st.outs ++ [RAct.errReply] } ∧
    isCont (stepRP r st (NetEvent.transportErr t)) = false := by
  obtain ⟨h1, h2, h3⟩ := hunk
  refine ⟨by simp [stepRP, hin], ?_, rfl⟩
  simp [stepRP, hin, handleIncoming, h1, h2, h3]

/-- Witness instantiating `c7_recoverable_errors` at pump start on a
malformed frame and on an unknown event type. -/
theorem c7_recoverable_errors_witness :
    (5 ≤ initRP.deadline ∧ (⟨"bogus", 3⟩ : InMsg).mtype ≠ "message" ∧
      (⟨"bogus", 3⟩ : InMsg).mtype ≠ "typing" ∧
      (⟨"bogus", 3⟩ : InMsg).mtype ≠ "ping") ∧
    stepRP ⟨true, false, false⟩ initRP (NetEvent.frame 5 none) =
      StepRes.cont
        { initRP with lastAct := 5, outs := initRP.outs ++ [RAct.errReply] } ∧
    stepRP ⟨true, false, false⟩ initRP (NetEvent.frame 5 (some ⟨"bogus", 3⟩)) =
      StepRes.cont
        { initRP with lastAct := 5, outs := initRP.outs ++ [RAct.errReply] } ∧
    isCont (stepRP ⟨true, false, false⟩ initRP (NetEvent.transportErr 5)) =
      false := by
  have h := c7_recoverable_errors ⟨true, false, false⟩ initRP 5 ⟨"bogus", 3⟩
    (by decide) ⟨by decide, by decide, by decide⟩
  exact ⟨⟨by decide, by decide, by decide, by decide⟩, h.1, h.2.1, h.2.2⟩

theorem stepRP_cont_counters (r : Router) (st : RPState) (e : NetEvent)
    (st2 : RPState) (h : stepRP r st e = StepRes.cont st2) :
    st2.unregs = st.unregs ∧ st2.discs = st.discs ∧
    st2.connClosed = st.connClosed := by
  cases e with
  | cancelEvt t => simp [stepRP] at h
  | transportErr t => simp [stepRP] at h
  | pongEvt t =>
    by_cases hin : t ≤ st.deadline
    · simp only [stepRP, if_pos hin, StepRes.cont.injEq] at h
      subst h; simp
    · simp [stepRP, hin] at h
  | frame t m =>
    by_cases hin : t ≤ st.deadline
    · cases m with
      | none =>
        simp only [stepRP, if_pos hin, StepRes.cont.injEq] at h
        subst h; simp
      | some msg =>
        simp only [stepRP, if_pos hin, StepRes.cont.injEq] at h
        subst h; simp
    · simp [stepRP, hin] at h

theorem stepRP_exit_form (r : Router) (st : RPState) (e : NetEvent)
    (st2 : RPState) (h : stepRP r st e = StepRes.exited st2) :
    st2 = deferExit r st := by
  cases e with
  | cancelEvt t =>
    simp only [stepRP, StepRes.exited.injEq] at h
    exact h.symm
  | transportErr t =>
    simp only [stepRP, StepRes.exited.injEq] at h
    exact h.symm
  | pongEvt t =>
    by_cases hin : t ≤ st.deadline
    · simp [stepRP, hin] at h
    · simp only [stepRP, if_neg hin, StepRes.exited.injEq] at h
      exact h.symm
  | frame t m =>
    by_cases hin : t ≤ st.deadline
    · cases m <;> simp [stepRP, hin] at h
    · simp only [stepRP, if_neg hin, StepRes.exited.injEq] at h
      exact h.symm

theorem runRP_exit_counts (r : Router) (evs : List NetEvent) :
    ∀ (st st' : RPState), st.unregs = 0 → st.discs = 0 →
      runRP r st evs = RPOut.exited st' →
      st'.unregs = 1 ∧ (r.hasHandler = true → st'.discs = 1) ∧
      st'.connClosed = true := by
  induction evs with
  | nil =>
    intro st st' h1 h2 h
    simp [runRP] at h
  | cons e rest ih =>
    intro st st' h1 h2 h
    rw [runRP] at h
    cases hstep : stepRP r st e with
    | cont st2 =>
      rw [hstep] at h
      obtain ⟨hu, hd, _⟩ := stepRP_cont_counters r st e st2 hstep
      exact ih st2 st' (hu.trans h1) (hd.trans h2) h
    | exited st2 =>
      rw [hstep] at h
      obtain rfl : st2 = deferExit r st := stepRP_exit_form r st e st2 hstep
      cases h with
      | refl =>
        refine ⟨by simp [deferExit, h1], fun hh => ?_, by simp [deferExit]⟩
        simp [deferExit, hh, h2]

/-- C8: whenever the read pump exits — on any path: peer close or read error
(transport event), deadline expiry, or context cancellation — the deferred
block has submitted the connection for unregistration and invoked the
router's disconnect callback, each exactly once. -/
theorem c8_exit_exactly_once (r : Router) (evs : List NetEvent)
    (st' : RPState) (hh : r.hasHandler = true)
    (hrun : runRP r initRP evs = RPOut.exited st') :
    st'.unregs = 1 ∧ st'.discs = 1 ∧ st'.connClosed = true := by
  obtain ⟨h1, h2, h3⟩ := runRP_exit_counts r evs initRP st' rfl rfl hrun
  exact ⟨h1, h2 hh, h3⟩

/-- Witness instantiating `c8_exit_exactly_once` on a run that ends with a
transport error after one well-formed frame. -/
theorem c8_exit_exactly_once_witness :
    ((⟨true, false, false⟩ : Router).hasHandler = true ∧
      runRP ⟨true, false, false⟩ initRP
        [NetEvent.frame 5 (some ⟨"ping", 0⟩), NetEvent.transportErr 9] =
        RPOut.exited ⟨pongWait, 5, [RAct.pongReply], 1, 1, true⟩) ∧
    (⟨pongWait, 5, [RAct.pongReply], 1, 1, true⟩ : RPState).unregs = 1 ∧
    (⟨pongWait, 5, [RAct.pongReply], 1, 1, true⟩ : RPState).discs = 1 ∧
    (⟨pongWait, 5, [RAct.pongReply], 1, 1, true⟩ : RPState).connClosed =
      true := by
  refine ⟨⟨rfl, by decide⟩, ?_⟩
  exact c8_exit_exactly_once ⟨true, false, false⟩
    [NetEvent.frame 5 (some ⟨"ping", 0⟩), NetEvent.transportErr 9]
    ⟨pongWait, 5, [RAct.pongReply], 1, 1, true⟩ rfl (by decide)

/-- C10: the single-client send path (`Client.SendMessage`, used by the read
pump's error replies, and `Hub.SendToClient`) is a blocking send with a
5-second timeout, not the non-blocking drop-and-disconnect enqueue of the
broadcast path: on a full queue it returns a timeout error after
`sendTimeout = 5` seconds and leaves the hub state — in particular the
registration tables — unchanged, so the client stays registered while its
caller (the read pump, for an error reply) was stalled for up to 5
seconds. -/
theorem c10_send_blocking (h : HubState) (c : Client) (mVal : Nat)
    (hfull : qHasRoom h.queues c.cid = false) :
    sendMessageClient h c false mVal = (h, SendRes.timeoutAfter sendTimeout) ∧
    sendToClient h c mVal = (h, SendRes.timeoutAfter sendTimeout) ∧
    sendTimeout = 5 := by
  refine ⟨?_, ?_, rfl⟩ <;>
    simp [sendMessageClient, sendToClient, qTryEnqueue, hfull]

/-- Witness instantiating `c10_send_blocking` on a hub whose only client has
a full queue. -/
theorem c10_send_blocking_witness :
    qHasRoom wHubFull.queues wClient.cid = false ∧
    sendMessageClient wHubFull wClient false 3 =
      (wHubFull, SendRes.timeoutAfter sendTimeout) ∧
    sendToClient wHubFull wClient 3 =
      (wHubFull, SendRes.timeoutAfter sendTimeout) ∧
    sendTimeout = 5 := by
  have h := c10_send_blocking wHubFull wClient 3 (by decide)
  exact ⟨by decide, h.1, h.2.1, h.2.2⟩

/-- C5 counterexample: on the direct per-identity delivery path
(`Hub.BroadcastToUser`), a connection with a full queue has the event
dropped but is NOT force-unregistered: after the delivery the client is
still present in both tables and its queue is untouched, contradicting the
claim that every delivery path removes a full-queue connection from both
tables. -/
theorem c5_counterexample :
    (broadcastToUser wHubFull wClient.userID 3).2 =
      [Action.marshalAct 3, Action.dropFull wClient.cid] ∧
    memTbl (broadcastToUser wHubFull wClient.userID 3).1.clients
      wClient.userID wClient ∧
    memTbl (broadcastToUser wHubFull wClient.userID 3).1.conversations
      wClient.conversationID wClient ∧
    qEntryOf (broadcastToUser wHubFull wClient.userID 3).1.queues wClient.cid
      = qEntryOf wHubFull.queues wClient.cid := by
  refine ⟨by decide, by decide, by decide, by decide⟩

theorem marshalCount_cons (a : Action) (l : List Action) :
    marshalCount (a :: l) = marshalCount l +
      (match a with | .marshalAct _ => 1 | _ => 0) := by
  unfold marshalCount
  rw [List.countP_cons]
  cases a <;> simp

theorem attemptsFor_cons (k : Nat) (a : Action) (l : List Action) :
    attemptsFor k (a :: l) = attemptsFor k l +
      (match a with
        | .enqueue c _ => if c = k then 1 else 0
        | .dropFull c => if c = k then 1 else 0
        | _ => 0) := by
  unfold attemptsFor
  rw [List.countP_cons]
  cases a with
  | marshalAct m => simp
  | enqueue c d => by_cases hc : c = k <;> simp [hc]
  | dropFull c => by_cases hc : c = k <;> simp [hc]

theorem excludedBy_some_eq_false (e c : Client) :
    excludedBy (some e) c = false ↔ c ≠ e := by
  simp [excludedBy]

theorem qTryEnqueue_eq_some (qs : Queues) (k data : Nat) (qs' : Queues)
    (h : qTryEnqueue qs k data = some qs') :
    qs' = qSet qs k
      ⟨(qEntryOf qs k).buf ++ [data], (qEntryOf qs k).closeCount⟩ ∧
    qHasRoom qs k = true := by
  unfold qTryEnqueue at h
  by_cases hr : qHasRoom qs k = true
  · rw [if_pos hr] at h
    exact ⟨(Option.some.inj h).symm, hr⟩
  · rw [if_neg hr] at h
    simp at h

theorem enqueueAll_marshalCount (ms : List Client) : ∀ (qs : Queues)
    (ex : Option Client) (data : Nat),
    marshalCount (enqueueAll qs ms ex data).2.2 = 0 := by
  induction ms with
  | nil => intro qs ex data; rfl
  | cons c rest ih =>
    intro qs ex data
    by_cases hex : excludedBy ex c = true
    · simp [enqueueAll, hex, ih]
    · simp only [Bool.not_eq_true] at hex
      cases htry : qTryEnqueue qs c.cid data with
      | some qs1 => simp [enqueueAll, hex, htry, marshalCount_cons, ih]
      | none => simp [enqueueAll, hex, htry, marshalCount_cons, ih]

theorem enqueueAll_attemptsFor_zero (ms : List Client) : ∀ (qs : Queues)
    (ex : Option Client) (data k : Nat),
    (∀ c' ∈ ms, excludedBy ex c' = false → c'.cid ≠ k) →
    attemptsFor k (enqueueAll qs ms ex data).2.2 = 0 := by
  induction ms with
  | nil => intro qs ex data k h; rfl
  | cons c rest ih =>
    intro qs ex data k h
    have hrest := fun c' hc' => h c' (List.mem_cons_of_mem _ hc')
    by_cases hex : excludedBy ex c = true
    · simp [enqueueAll, hex, ih _ _ _ _ hrest]
    · simp only [Bool.not_eq_true] at hex
      have hcid : c.cid ≠ k := h c (List.mem_cons_self _ _) hex
      cases htry : qTryEnqueue qs c.cid data with
      | some qs1 =>
        simp [enqueueAll, hex, htry, attemptsFor_cons, hcid,
          ih _ _ _ _ hrest]
      | none =>
        simp [enqueueAll, hex, htry, attemptsFor_cons, hcid,
          ih _ _ _ _ hrest]

theorem enqueueAll_attemptsFor_one (ms : List Client) : ∀ (qs : Queues)
    (ex : Option Client) (data : Nat) (c : Client),
    c ∈ ms → ms.Nodup → cidInj ms → excludedBy ex c = false →
    attemptsFor c.cid (enqueueAll qs ms ex data).2.2 = 1 := by
  induction ms with
  | nil => intro qs ex data c hc; simp at hc
  | cons c0 rest ih =>
    intro qs ex data c hc hnd hinj hex
    rw [List.nodup_cons] at hnd
    have hinjr : cidInj rest := fun a ha b hb =>
      hinj a (List.mem_cons_of_mem _ ha) b (List.mem_cons_of_mem _ hb)
    rcases List.mem_cons.mp hc with rfl | hcr
    · have hzero : ∀ c' ∈ rest, excludedBy ex c' = false → c'.cid ≠ c.cid := by
        intro c' hc' hex' heq
        have := hinj c' (List.mem_cons_of_mem _ hc') c (List.mem_cons_self _ _)
          heq
        exact hnd.1 (this ▸ hc')
      cases htry : qTryEnqueue qs c.cid data with
      | some qs1 =>
        simp [enqueueAll, hex, htry, attemptsFor_cons,
          enqueueAll_attemptsFor_zero rest qs1 ex data c.cid hzero]
      | none =>
        simp [enqueueAll, hex, htry, attemptsFor_cons,
          enqueueAll_attemptsFor_zero rest qs ex data c.cid hzero]
    · have hne : c ≠ c0 := fun he => hnd.1 (he ▸ hcr)
      have hcid : ¬ c0.cid = c.cid := fun heq =>
        hne (hinj c hc c0 (List.mem_cons_self _ _) heq.symm)
      by_cases hex0 : excludedBy ex c0 = true
      · simp [enqueueAll, hex0, ih _ _ _ _ hcr hnd.2 hinjr hex]
      · simp only [Bool.not_eq_true] at hex0
        cases htry : qTryEnqueue qs c0.cid data with
        | some qs1 =>
          simp [enqueueAll, hex0, htry, attemptsFor_cons, hcid,
            ih _ _ _ _ hcr hnd.2 hinjr hex]
        | none =>
          simp [enqueueAll, hex0, htry, attemptsFor_cons, hcid,
            ih _ _ _ _ hcr hnd.2 hinjr hex]

theorem enqueueAll_qGet_untouched (ms : List Client) : ∀ (qs : Queues)
    (ex : Option Client) (data k : Nat),
    (∀ c' ∈ ms, excludedBy ex c' = false → c'.cid ≠ k) →
    qGet (enqueueAll qs ms ex data).1 k = qGet qs k := by
  induction ms with
  | nil => intro qs ex data k h; rfl
  | cons c rest ih =>
    intro qs ex data k h
    have hrest := fun c' hc' => h c' (List.mem_cons_of_mem _ hc')
    by_cases hex : excludedBy ex c = true
    · simp [enqueueAll, hex, ih _ _ _ _ hrest]
    · simp only [Bool.not_eq_true] at hex
      have hcid : c.cid ≠ k := h c (List.mem_cons_self _ _) hex
      cases htry : qTryEnqueue qs c.cid data with
      | some qs1 =>
        obtain ⟨rfl, _⟩ := qTryEnqueue_eq_some qs c.cid data qs1 htry
        simp only [enqueueAll, hex, Bool.false_eq_true, if_false, htry]
        rw [ih _ _ _ _ hrest, qGet_qSet,
          if_neg (fun he : k = c.cid => hcid he.symm)]
      | none =>
        simp [enqueueAll, hex, htry, ih _ _ _ _ hrest]

theorem enqueueAll_drops_mem (ms : List Client) : ∀ (qs : Queues)
    (ex : Option Client) (data : Nat) (d : Client),
    d ∈ (enqueueAll qs ms ex data).2.1 →
    d ∈ ms ∧ excludedBy ex d = false := by
  induction ms with
  | nil => intro qs ex data d h; simp [enqueueAll] at h
  | cons c rest ih =>
    intro qs ex data d h
    by_cases hex : excludedBy ex c = true
    · rw [enqueueAll] at h
      simp only [hex, if_true] at h
      obtain ⟨h1, h2⟩ := ih _ _ _ _ h
      exact ⟨List.mem_cons_of_mem _ h1, h2⟩
    · simp only [Bool.not_eq_true] at hex
      rw [enqueueAll] at h
      simp only [hex, Bool.false_eq_true, if_false] at h
      cases htry : qTryEnqueue qs c.cid data with
      | some qs1 =>
        rw [htry] at h
        simp only at h
        obtain ⟨h1, h2⟩ := ih _ _ _ _ h
        exact ⟨List.mem_cons_of_mem _ h1, h2⟩
      | none =>
        rw [htry] at h
        simp only [List.mem_cons] at h
        rcases h with rfl | h
        · exact ⟨List.mem_cons_self _ _, hex⟩
        · obtain ⟨h1, h2⟩ := ih _ _ _ _ h
          exact ⟨List.mem_cons_of_mem _ h1, h2⟩

theorem qGet_unregister_ne (h : HubState) (d : Client) (k : Nat)
    (hk : k ≠ d.cid) :
    qGet (unregisterClient h d).queues k = qGet h.queues k := by
  unfold unregisterClient
  by_cases hf : tblHas h.clients d.userID d = true
  · simp [hf, qGet_qClose_ne _ _ _ hk]
  · simp [hf]

theorem qGet_foldl_unregister_ne (ds : List Client) : ∀ (h : HubState)
    (k : Nat), (∀ d ∈ ds, d.cid ≠ k) →
    qGet ((ds.foldl unregisterClient h)).queues k = qGet h.queues k := by
  induction ds with
  | nil => intro h k hd; rfl
  | cons d rest ih =>
    intro h k hd
    rw [List.foldl_cons]
    rw [ih _ _ (fun d' hd' => hd d' (List.mem_cons_of_mem _ hd'))]
    exact qGet_unregister_ne h d k
      (fun he => hd d (List.mem_cons_self _ _) he.symm)

/-- C2: `broadcastMessage` serializes the event exactly once per broadcast
(one marshal action in the trace, however many recipients there are); every
current member of the room other than the excluded connection gets exactly
one non-blocking enqueue attempt; and the excluded connection gets no
attempt and its queue is unchanged, whatever the membership state. -/
theorem c2_broadcast_exclusion (h : HubState) (convID mVal : Nat)
    (e : Client) (ms : List Client)
    (hms : tblGet h.conversations convID = some ms)
    (hnd : ms.Nodup) (hinj : cidInj ms)
    (hecid : ∀ c' ∈ ms, c' ≠ e → c'.cid ≠ e.cid) :
    marshalCount (broadcastMessage h convID mVal (some e)).2 = 1 ∧
    (∀ c ∈ ms, c ≠ e →
      attemptsFor c.cid (broadcastMessage h convID mVal (some e)).2 = 1) ∧
    attemptsFor e.cid (broadcastMessage h convID mVal (some e)).2 = 0 ∧
    qGet (broadcastMessage h convID mVal (some e)).1.queues e.cid =
      qGet h.queues e.cid := by
  have hnotex : ∀ c' ∈ ms, excludedBy (some e) c' = false → c'.cid ≠ e.cid :=
    fun c' hc' hex' => hecid c' hc' ((excludedBy_some_eq_false e c').mp hex')
  have hbm : broadcastMessage h convID mVal (some e) =
      (((enqueueAll h.queues ms (some e) (marshal mVal)).2.1).foldl
          unregisterClient
          { h with queues := (enqueueAll h.queues ms (some e) (marshal mVal)).1 },
        Action.marshalAct mVal ::
          (enqueueAll h.queues ms (some e) (marshal mVal)).2.2) := by
    unfold broadcastMessage broadcastCore
    rw [hms]
  rw [hbm]
  refine ⟨?_, ?_, ?_, ?_⟩
  · simp [marshalCount_cons, enqueueAll_marshalCount]
  · intro c hc hne
    simp only [attemptsFor_cons]
    rw [enqueueAll_attemptsFor_one ms _ _ _ c hc hnd hinj
      ((excludedBy_some_eq_false e c).mpr hne)]
  · simp only [attemptsFor_cons]
    rw [enqueueAll_attemptsFor_zero ms _ _ _ e.cid hnotex]
  · have hdrops : ∀ d ∈ (enqueueAll h.queues ms (some e) (marshal mVal)).2.1,
        d.cid ≠ e.cid := by
      intro d hd
      obtain ⟨hdm, hdex⟩ := enqueueAll_drops_mem ms _ _ _ d hd
      exact hecid d hdm ((excludedBy_some_eq_false e d).mp hdex)
    rw [qGet_foldl_unregister_ne _ _ _ hdrops]
    exact enqueueAll_qGet_untouched ms _ _ _ _ hnotex

/-- Witness instantiating `c2_broadcast_exclusion` on a two-member room,
excluding `wClient`. -/
theorem c2_broadcast_exclusion_witness :
    (tblGet wHub2.conversations 100 = some [wClient2, wClient] ∧
      ([wClient2, wClient] : List Client).Nodup ∧
      cidInj [wClient2, wClient] ∧
      ∀ c' ∈ ([wClient2, wClient] : List Client), c' ≠ wClient →
        c'.cid ≠ wClient.cid) ∧
    marshalCount (broadcastMessage wHub2 100 3 (some wClient)).2 = 1 ∧
    attemptsFor wClient2.cid (broadcastMessage wHub2 100 3 (some wClient)).2
      = 1 ∧
    attemptsFor wClient.cid (broadcastMessage wHub2 100 3 (some wClient)).2
      = 0 ∧
    qGet (broadcastMessage wHub2 100 3 (some wClient)).1.queues wClient.cid =
      qGet wHub2.queues wClient.cid := by
  have h := c2_broadcast_exclusion wHub2 100 3 wClient [wClient2, wClient]
    (by decide) (by decide) (by decide) (by decide)
  exact ⟨⟨by decide, by decide, by decide, by decide⟩,
    h.1, h.2.1 wClient2 (by decide) (by decide), h.2.2.1, h.2.2.2⟩

theorem mem_tblDelClients (m : Tbl) (k : Nat) (c : Client)
    (p : Nat × List Client) (hp : p ∈ tblDelClients m k c) :
    p ∈ m ∨ ∃ s, (p.1, s) ∈ m ∧ p.2 = s.erase c := by
  induction m with
  | nil => simp [tblDelClients] at hp
  | cons q rest ih =>
    obtain ⟨k0, s0⟩ := q
    by_cases hk : k = k0
    · subst hk
      by_cases hc : c ∈ s0
      · by_cases hemp : s0.erase c = []
        · rw [show tblDelClients ((k, s0) :: rest) k c = rest by
            simp [tblDelClients, hc, hemp]] at hp
          exact Or.inl (List.mem_cons_of_mem _ hp)
        · rw [show tblDelClients ((k, s0) :: rest) k c =
              (k, s0.erase c) :: rest by
            simp [tblDelClients, hc, hemp]] at hp
          rcases List.mem_cons.mp hp with heq | hp
          · subst heq
            exact Or.inr ⟨s0, List.mem_cons_self _ _, rfl⟩
          · exact Or.inl (List.mem_cons_of_mem _ hp)
      · rw [show tblDelClients ((k, s0) :: rest) k c = (k, s0) :: rest by
          simp [tblDelClients, hc]] at hp
        exact Or.inl hp
    · rw [show tblDelClients ((k0, s0) :: rest) k c =
          (k0, s0) :: tblDelClients rest k c by
        simp [tblDelClients, hk]] at hp
      rcases List.mem_cons.mp hp with heq | hp
      · subst heq
        exact Or.inl (List.mem_cons_self _ _)
      · rcases ih hp with h | ⟨s, hs, he⟩
        · exact Or.inl (List.mem_cons_of_mem _ h)
        · exact Or.inr ⟨s, List.mem_cons_of_mem _ hs, he⟩

theorem mem_tblDelConv (m : Tbl) (k : Nat) (c : Client)
    (p : Nat × List Client) (hp : p ∈ tblDelConv m k c) :
    p ∈ m ∨ ∃ s, (p.1, s) ∈ m ∧ p.2 = s.erase c := by
  induction m with
  | nil => simp [tblDelConv] at hp
  | cons q rest ih =>
    obtain ⟨k0, s0⟩ := q
    by_cases hk : k = k0
    · subst hk
      by_cases hemp : s0.erase c = []
      · rw [show tblDelConv ((k, s0) :: rest) k c = rest by
          simp [tblDelConv, hemp]] at hp
        exact Or.inl (List.mem_cons_of_mem _ hp)
      · rw [show tblDelConv ((k, s0) :: rest) k c =
            (k, s0.erase c) :: rest by simp [tblDelConv, hemp]] at hp
        rcases List.mem_cons.mp hp with heq | hp
        · subst heq
          exact Or.inr ⟨s0, List.mem_cons_self _ _, rfl⟩
        · exact Or.inl (List.mem_cons_of_mem _ hp)
    · rw [show tblDelConv ((k0, s0) :: rest) k c =
          (k0, s0) :: tblDelConv rest k c by simp [tblDelConv, hk]] at hp
      rcases List.mem_cons.mp hp with heq | hp
      · subst heq
        exact Or.inl (List.mem_cons_self _ _)
      · rcases ih hp with h | ⟨s, hs, he⟩
        · exact Or.inl (List.mem_cons_of_mem _ h)
        · exact Or.inr ⟨s, List.mem_cons_of_mem _ hs, he⟩

theorem TblWF_tblDelClients (m : Tbl) (k : Nat) (c : Client)
    (hwf : TblWF m) : TblWF (tblDelClients m k c) := by
  obtain ⟨hkeys, hbkt⟩ := hwf
  refine ⟨(tblDelClients_keys_sublist m k c).nodup hkeys, fun p hp => ?_⟩
  rcases mem_tblDelClients m k c p hp with h | ⟨s, hs, he⟩
  · exact hbkt p h
  · rw [he]
    exact (hbkt (p.1, s) hs).erase c

theorem TblWF_tblDelConv (m : Tbl) (k : Nat) (c : Client)
    (hwf : TblWF m) : TblWF (tblDelConv m k c) := by
  obtain ⟨hkeys, hbkt⟩ := hwf
  refine ⟨(tblDelConv_keys_sublist m k c).nodup hkeys, fun p hp => ?_⟩
  rcases mem_tblDelConv m k c p hp with h | ⟨s, hs, he⟩
  · exact hbkt p h
  · rw [he]
    exact (hbkt (p.1, s) hs).erase c

theorem TblWF_unregister (h : HubState) (d : Client) (hwc : TblWF h.clients)
    (hwv : TblWF h.conversations) :
    TblWF (unregisterClient h d).clients ∧
    TblWF (unregisterClient h d).conversations := by
  constructor
  · exact TblWF_tblDelClients _ _ _ hwc
  · by_cases hcv : d.conversationID ≠ 0
    · simp only [unregisterClient, if_pos hcv]
      exact TblWF_tblDelConv _ _ _ hwv
    · simp only [unregisterClient, if_neg hcv]
      exact hwv

theorem memTbl_tblDelClients_mono (m : Tbl) (k0 k : Nat) (d c : Client)
    (hnd : (m.map Prod.fst).Nodup)
    (h : memTbl (tblDelClients m k0 d) k c) : memTbl m k c := by
  rw [memTbl_iff] at h ⊢
  obtain ⟨s, hs, hmem⟩ := h
  rw [tblGet_tblDelClients m k0 k d hnd] at hs
  by_cases hk : k = k0
  · subst hk
    rw [if_pos rfl] at hs
    cases ho : tblGet m k with
    | none => rw [ho] at hs; simp [bucketDelC] at hs
    | some s0 =>
      rw [ho] at hs
      by_cases hd : d ∈ s0
      · by_cases hemp : s0.erase d = []
        · simp [bucketDelC, hd, hemp] at hs
        · simp only [bucketDelC, if_pos hd, if_neg hemp,
            Option.some.injEq] at hs
          subst hs
          exact ⟨s0, rfl, List.mem_of_mem_erase hmem⟩
      · simp only [bucketDelC, if_neg hd, Option.some.injEq] at hs
        subst hs
        exact ⟨s0, rfl, hmem⟩
  · rw [if_neg hk] at hs
    exact ⟨s, hs, hmem⟩

theorem memTbl_tblDelConv_mono (m : Tbl) (k0 k : Nat) (d c : Client)
    (hnd : (m.map Prod.fst).Nodup)
    (h : memTbl (tblDelConv m k0 d) k c) : memTbl m k c := by
  rw [memTbl_iff] at h ⊢
  obtain ⟨s, hs, hmem⟩ := h
  rw [tblGet_tblDelConv m k0 k d hnd] at hs
  by_cases hk : k = k0
  · subst hk
    rw [if_pos rfl] at hs
    cases ho : tblGet m k with
    | none => rw [ho] at hs; simp [bucketDelV] at hs
    | some s0 =>
      rw [ho] at hs
      by_cases hemp : s0.erase d = []
      · simp [bucketDelV, hemp] at hs
      · simp only [bucketDelV, if_neg hemp, Option.some.injEq] at hs
        subst hs
        exact ⟨s0, rfl, List.mem_of_mem_erase hmem⟩
  · rw [if_neg hk] at hs
    exact ⟨s, hs, hmem⟩

theorem memTbl_unregister_mono (h : HubState) (d : Client) (k : Nat)
    (c : Client) (hwc : TblWF h.clients) (hwv : TblWF h.conversations) :
    (memTbl (unregisterClient h d).clients k c → memTbl h.clients k c) ∧
    (memTbl (unregisterClient h d).conversations k c →
      memTbl h.conversations k c) := by
  constructor
  · exact memTbl_tblDelClients_mono _ _ _ _ _ hwc.1
  · by_cases hcv : d.conversationID ≠ 0
    · simp only [unregisterClient, if_pos hcv]
      exact memTbl_tblDelConv_mono _ _ _ _ _ hwv.1
    · simp only [unregisterClient, if_neg hcv]
      exact id

theorem foldl_unreg_mono (ds : List Client) : ∀ (h : HubState) (k : Nat)
    (c : Client), TblWF h.clients → TblWF h.conversations →
    (memTbl ((ds.foldl unregisterClient h)).clients k c →
      memTbl h.clients k c) ∧
    (memTbl ((ds.foldl unregisterClient h)).conversations k c →
      memTbl h.conversations k c) := by
  induction ds with
  | nil => intro h k c _ _; exact ⟨id, id⟩
  | cons d rest ih =>
    intro h k c hwc hwv
    rw [List.foldl_cons]
    obtain ⟨hwc', hwv'⟩ := TblWF_unregister h d hwc hwv
    obtain ⟨ihc, ihv⟩ := ih (unregisterClient h d) k c hwc' hwv'
    obtain ⟨mc, mv⟩ := memTbl_unregister_mono h d k c hwc hwv
    exact ⟨fun hh => mc (ihc hh), fun hh => mv (ihv hh)⟩

theorem tblHas_tblDelConv_self (m : Tbl) (k : Nat) (c : Client)
    (hwf : TblWF m) : tblHas (tblDelConv m k c) k c = false := by
  obtain ⟨hkeys, hbkt⟩ := hwf
  unfold tblHas
  rw [tblGet_tblDelConv m k k c hkeys, if_pos rfl]
  cases ho : tblGet m k with
  | none => simp [bucketDelV]
  | some s =>
    have hsnd : s.Nodup := hbkt (k, s) (tblGet_mem m k s ho)
    by_cases hemp : s.erase c = []
    · simp [bucketDelV, hemp]
    · simp [bucketDelV, hemp, hsnd.not_mem_erase]

theorem foldl_unreg_removes (ds : List Client) : ∀ (h : HubState)
    (c : Client), TblWF h.clients → TblWF h.conversations → c ∈ ds →
    ¬ memTbl ((ds.foldl unregisterClient h)).clients c.userID c ∧
    (c.conversationID ≠ 0 →
      ¬ memTbl ((ds.foldl unregisterClient h)).conversations
        c.conversationID c) := by
  induction ds with
  | nil => intro h c _ _ hmem; simp at hmem
  | cons d rest ih =>
    intro h c hwc hwv hmem
    rw [List.foldl_cons]
    obtain ⟨hwc', hwv'⟩ := TblWF_unregister h d hwc hwv
    by_cases hdc : c ∈ rest
    · exact ih _ c hwc' hwv' hdc
    · have hd : d = c := by
        rcases List.mem_cons.mp hmem with h1 | h1
        · exact h1.symm
        · exact absurd h1 hdc
      subst hd
      constructor
      · intro habs
        have hmono := (foldl_unreg_mono rest _ _ _ hwc' hwv').1 habs
        unfold memTbl at hmono
        rw [show (unregisterClient h d).clients =
            tblDelClients h.clients d.userID d from rfl] at hmono
        rw [tblHas_tblDelClients_self _ _ _ hwc] at hmono
        exact Bool.false_ne_true hmono
      · intro hnz habs
        have hmono := (foldl_unreg_mono rest _ _ _ hwc' hwv').2 habs
        unfold memTbl at hmono
        have hconv : (unregisterClient h d).conversations =
            tblDelConv h.conversations d.conversationID d := by
          simp [unregisterClient, hnz]
        rw [hconv, tblHas_tblDelConv_self _ _ _ hwv] at hmono
        exact Bool.false_ne_true hmono

theorem qHasRoom_congr (qs qs' : Queues) (k : Nat)
    (h : qGet qs' k = qGet qs k) : qHasRoom qs' k = qHasRoom qs k := by
  unfold qHasRoom qEntryOf
  rw [h]

theorem enqueueAll_full_qGet (ms : List Client) : ∀ (qs : Queues)
    (ex : Option Client) (data k : Nat), qHasRoom qs k = false →
    qGet (enqueueAll qs ms ex data).1 k = qGet qs k := by
  induction ms with
  | nil => intro qs ex data k _; rfl
  | cons c rest ih =>
    intro qs ex data k hfull
    by_cases hex : excludedBy ex c = true
    · simp [enqueueAll, hex, ih _ _ _ _ hfull]
    · simp only [Bool.not_eq_true] at hex
      cases htry : qTryEnqueue qs c.cid data with
      | some qs1 =>
        obtain ⟨rfl, hroom⟩ := qTryEnqueue_eq_some qs c.cid data qs1 htry
        have hkc : ¬ k = c.cid := fun he => by
          rw [he, hroom] at hfull
          exact Bool.noConfusion hfull
        have hq1 : qGet (qSet qs c.cid
            ⟨(qEntryOf qs c.cid).buf ++ [data],
              (qEntryOf qs c.cid).closeCount⟩) k = qGet qs k := by
          rw [qGet_qSet, if_neg hkc]
        simp only [enqueueAll, hex, Bool.false_eq_true, if_false, htry]
        rw [ih _ _ _ _ (by rw [qHasRoom_congr _ _ _ hq1]; exact hfull), hq1]
      | none =>
        simp [enqueueAll, hex, htry, ih _ _ _ _ hfull]

theorem enqueueAllUser_full_qGet (ms : List Client) : ∀ (qs : Queues)
    (data k : Nat), qHasRoom qs k = false →
    qGet (enqueueAllUser qs ms data).1 k = qGet qs k := by
  induction ms with
  | nil => intro qs data k _; rfl
  | cons c rest ih =>
    intro qs data k hfull
    cases htry : qTryEnqueue qs c.cid data with
    | some qs1 =>
      obtain ⟨rfl, hroom⟩ := qTryEnqueue_eq_some qs c.cid data qs1 htry
      have hkc : ¬ k = c.cid := fun he => by
        rw [he, hroom] at hfull
        exact Bool.noConfusion hfull
      have hq1 : qGet (qSet qs c.cid
          ⟨(qEntryOf qs c.cid).buf ++ [data],
            (qEntryOf qs c.cid).closeCount⟩) k = qGet qs k := by
        rw [qGet_qSet, if_neg hkc]
      simp only [enqueueAllUser, htry]
      rw [ih _ _ _ (by rw [qHasRoom_congr _ _ _ hq1]; exact hfull), hq1]
    | none =>
      simp [enqueueAllUser, htry, ih _ _ _ hfull]

theorem mem_drops_of_full (ms : List Client) : ∀ (qs : Queues)
    (ex : Option Client) (data : Nat) (c : Client),
    cidInj ms → c ∈ ms → excludedBy ex c = false →
    qHasRoom qs c.cid = false →
    c ∈ (enqueueAll qs ms ex data).2.1 := by
  induction ms with
  | nil => intro qs ex data c _ hc; simp at hc
  | cons c0 rest ih =>
    intro qs ex data c hinj hc hex hfull
    have hinjr : cidInj rest := fun a ha b hb =>
      hinj a (List.mem_cons_of_mem _ ha) b (List.mem_cons_of_mem _ hb)
    by_cases heq : c0 = c
    · subst heq
      simp only [enqueueAll, hex, Bool.false_eq_true, if_false]
      have htry : qTryEnqueue qs c0.cid data = none := by
        unfold qTryEnqueue
        rw [hfull]
        simp
      rw [htry]
      exact List.mem_cons_self _ _
    · have hcr : c ∈ rest := by
        rcases List.mem_cons.mp hc with h1 | h1
        · exact absurd h1.symm heq
        · exact h1
      by_cases hex0 : excludedBy ex c0 = true
      · simp only [enqueueAll, hex0, if_true]
        exact ih _ _ _ _ hinjr hcr hex hfull
      · simp only [Bool.not_eq_true] at hex0
        cases htry : qTryEnqueue qs c0.cid data with
        | some qs1 =>
          obtain ⟨rfl, hroom⟩ := qTryEnqueue_eq_some qs c0.cid data qs1 htry
          have hcid : ¬ c.cid = c0.cid := fun he =>
            heq (hinj c0 (List.mem_cons_self _ _) c hc he.symm)
          have hq : qGet (qSet qs c0.cid
              ⟨(qEntryOf qs c0.cid).buf ++ [data],
                (qEntryOf qs c0.cid).closeCount⟩) c.cid = qGet qs c.cid := by
            rw [qGet_qSet, if_neg hcid]
          simp only [enqueueAll, hex0, Bool.false_eq_true, if_false, htry]
          exact ih _ _ _ _ hinjr hcr hex
            (by rw [qHasRoom_congr _ _ _ hq]; exact hfull)
        | none =>
          simp only [enqueueAll, hex0, Bool.false_eq_true, if_false, htry,
            List.mem_cons]
          exact Or.inr (ih _ _ _ _ hinjr hcr hex hfull)

/-- C5 amended: on the room-broadcast path, a member whose bounded queue is
full at enqueue time has the event dropped and is force-unregistered within
the same broadcast processing (the spawned unregister removes it from both
tables); on the direct per-identity path (`BroadcastToUser`), the event is
likewise dropped on a full queue, but the connection is NOT unregistered —
both tables and its queue are left unchanged. -/
theorem c5_backpressure (h : HubState) (convID mVal : Nat) (c : Client)
    (ms : List Client)
    (hwc : TblWF h.clients) (hwv : TblWF h.conversations)
    (hms : tblGet h.conversations convID = some ms)
    (hinj : cidInj ms) (hc : c ∈ ms)
    (hcid : c.conversationID = convID) (hnz : c.conversationID ≠ 0)
    (hfull : qHasRoom h.queues c.cid = false) :
    (¬ memTbl (broadcastMessage h convID mVal none).1.clients c.userID c ∧
      ¬ memTbl (broadcastMessage h convID mVal none).1.conversations convID
        c) ∧
    ((broadcastToUser h c.userID mVal).1.clients = h.clients ∧
      (broadcastToUser h c.userID mVal).1.conversations = h.conversations ∧
      qGet (broadcastToUser h c.userID mVal).1.queues c.cid =
        qGet h.queues c.cid) := by
  constructor
  · have hbm : (broadcastMessage h convID mVal none).1 =
        ((enqueueAll h.queues ms none (marshal mVal)).2.1).foldl
          unregisterClient
          { h with queues := (enqueueAll h.queues ms none (marshal mVal)).1 }
        := by
      unfold broadcastMessage broadcastCore
      rw [hms]
    rw [hbm]
    have hdrop : c ∈ (enqueueAll h.queues ms none (marshal mVal)).2.1 :=
      mem_drops_of_full ms _ _ _ c hinj hc rfl hfull
    have hres := foldl_unreg_removes
      (enqueueAll h.queues ms none (marshal mVal)).2.1
      { h with queues := (enqueueAll h.queues ms none (marshal mVal)).1 }
      c hwc hwv hdrop
    exact ⟨hres.1, hcid ▸ hres.2 hnz⟩
  · cases hbu : tblGet h.clients c.userID with
    | none =>
      unfold broadcastToUser
      rw [hbu]
      exact ⟨rfl, rfl, rfl⟩
    | some msU =>
      unfold broadcastToUser
      rw [hbu]
      exact ⟨rfl, rfl, enqueueAllUser_full_qGet msU _ _ _ hfull⟩

/-- Witness instantiating `c5_backpressure` on a hub whose only client (in
room 100) has a full queue. -/
theorem c5_backpressure_witness :
    (TblWF wHubFull.clients ∧ TblWF wHubFull.conversations ∧
      tblGet wHubFull.conversations 100 = some [wClient] ∧
      cidInj [wClient] ∧ wClient ∈ ([wClient] : List Client) ∧
      wClient.conversationID = 100 ∧ wClient.conversationID ≠ 0 ∧
      qHasRoom wHubFull.queues wClient.cid = false) ∧
    (¬ memTbl (broadcastMessage wHubFull 100 3 none).1.clients
        wClient.userID wClient ∧
      ¬ memTbl (broadcastMessage wHubFull 100 3 none).1.conversations 100
        wClient) ∧
    ((broadcastToUser wHubFull wClient.userID 3).1.clients =
        wHubFull.clients ∧
      (broadcastToUser wHubFull wClient.userID 3).1.conversations =
        wHubFull.conversations ∧
      qGet (broadcastToUser wHubFull wClient.userID 3).1.queues wClient.cid
        = qGet wHubFull.queues wClient.cid) := by
  have h := c5_backpressure wHubFull 100 3 wClient [wClient] (by decide)
    (by decide) (by decide) (by decide) (by decide) (by decide) (by decide)
    (by decide)
  exact ⟨⟨by decide, by decide, by decide, by decide, by decide, by decide,
    by decide, by decide⟩, h.1, h.2⟩

theorem enqueueAll_all_space (ms : List Client) : ∀ (qs : Queues)
    (data : Nat), ms.Nodup → cidInj ms →
    (∀ c' ∈ ms, qHasRoom qs c'.cid = true) →
    (enqueueAll qs ms none data).2.1 = [] ∧
    (∀ c' ∈ ms, qEntryOf (enqueueAll qs ms none data).1 c'.cid =
      ⟨(qEntryOf qs c'.cid).buf ++ [data], 0⟩) := by
  induction ms with
  | nil =>
    intro qs data _ _ _
    exact ⟨rfl, by intro c' hc'; simp at hc'⟩
  | cons c rest ih =>
    intro qs data hnd hinj hsp
    rw [List.nodup_cons] at hnd
    have hinjr : cidInj rest := fun a ha b hb =>
      hinj a (List.mem_cons_of_mem _ ha) b (List.mem_cons_of_mem _ hb)
    have hroom : qHasRoom qs c.cid = true := hsp c (List.mem_cons_self _ _)
    have hcc : (qEntryOf qs c.cid).closeCount = 0 :=
      (of_decide_eq_true hroom).1
    set qs1 : Queues := qSet qs c.cid
      ⟨(qEntryOf qs c.cid).buf ++ [data],
        (qEntryOf qs c.cid).closeCount⟩ with hqs1
    have htry : qTryEnqueue qs c.cid data = some qs1 := by
      unfold qTryEnqueue
      rw [hroom]
      simp [hqs1]
    have hq1ne : ∀ k, k ≠ c.cid → qGet qs1 k = qGet qs k := by
      intro k hk
      rw [hqs1, qGet_qSet, if_neg hk]
    have hsp1 : ∀ c' ∈ rest, qHasRoom qs1 c'.cid = true := by
      intro c' hc'
      have hcne : c'.cid ≠ c.cid := fun he => hnd.1 (by
        have heqc := hinj c' (List.mem_cons_of_mem _ hc') c
          (List.mem_cons_self _ _) he
        exact heqc ▸ hc')
      rw [qHasRoom_congr _ _ _ (hq1ne _ hcne)]
      exact hsp c' (List.mem_cons_of_mem _ hc')
    obtain ⟨ihd, ihe⟩ := ih qs1 data hnd.2 hinjr hsp1
    have hred : enqueueAll qs (c :: rest) none data =
        ((enqueueAll qs1 rest none data).1,
          (enqueueAll qs1 rest none data).2.1,
          Action.enqueue c.cid data :: (enqueueAll qs1 rest none data).2.2)
        := by
      rw [enqueueAll]
      simp only [excludedBy, Bool.false_eq_true, if_false, htry]
    rw [hred]
    refine ⟨ihd, fun c' hc' => ?_⟩
    rcases List.mem_cons.mp hc' with rfl | hcr
    · have hunt : qGet (enqueueAll qs1 rest none data).1 c'.cid =
          qGet qs1 c'.cid := by
        apply enqueueAll_qGet_untouched
        intro a ha _ hae
        exact absurd (by
          have heqc := hinj a (List.mem_cons_of_mem _ ha) c'
            (List.mem_cons_self _ _) hae
          exact heqc ▸ ha) hnd.1
      have hcc2 : ((qGet qs c'.cid).getD ⟨[], 1⟩).closeCount = 0 := hcc
      unfold qEntryOf
      rw [hunt, hqs1, qGet_qSet, if_pos rfl]
      simp [hcc2, qEntryOf]
    · rw [ihe c' hcr]
      have hcne : c'.cid ≠ c.cid := fun he => hnd.1 (by
        have heqc := hinj c' (List.mem_cons_of_mem _ hcr) c
          (List.mem_cons_self _ _) he
        exact heqc ▸ hcr)
      unfold qEntryOf
      rw [hq1ne _ hcne]

theorem runBroadcasts_all_space (evs : List Nat) : ∀ (h : HubState)
    (convID : Nat) (ms : List Client),
    tblGet h.conversations convID = some ms → ms.Nodup → cidInj ms →
    (∀ c' ∈ ms, (qEntryOf h.queues c'.cid).closeCount = 0 ∧
      (qEntryOf h.queues c'.cid).buf.length + evs.length ≤ sendBufferSize) →
    (runBroadcasts h convID evs).clients = h.clients ∧
    (runBroadcasts h convID evs).conversations = h.conversations ∧
    (∀ c' ∈ ms, qEntryOf (runBroadcasts h convID evs).queues c'.cid =
      ⟨(qEntryOf h.queues c'.cid).buf ++ evs.map marshal, 0⟩) := by
  induction evs with
  | nil =>
    intro h convID ms hms hnd hinj hsp
    refine ⟨rfl, rfl, fun c' hc' => ?_⟩
    obtain ⟨h1, h2⟩ := hsp c' hc'
    show qEntryOf h.queues c'.cid =
      ⟨(qEntryOf h.queues c'.cid).buf ++ List.map marshal [], 0⟩
    rw [List.map_nil, List.append_nil, ← h1]
  | cons e evs' ih =>
    intro h convID ms hms hnd hinj hsp
    have hsp1 : ∀ c' ∈ ms, qHasRoom h.queues c'.cid = true := by
      intro c' hc'
      obtain ⟨h1, h2⟩ := hsp c' hc'
      unfold qHasRoom
      apply decide_eq_true
      refine ⟨h1, ?_⟩
      simp only [List.length_cons] at h2
      omega
    obtain ⟨hdrops, hentries⟩ :=
      enqueueAll_all_space ms h.queues (marshal e) hnd hinj hsp1
    have hstep : (broadcastMessage h convID e none).1 =
        { h with queues := (enqueueAll h.queues ms none (marshal e)).1 } := by
      unfold broadcastMessage broadcastCore
      rw [hms]
      simp [hdrops]
    have hrun : runBroadcasts h convID (e :: evs') =
        runBroadcasts
          { h with queues := (enqueueAll h.queues ms none (marshal e)).1 }
          convID evs' := by
      unfold runBroadcasts
      rw [List.foldl_cons, hstep]
    set st1 : HubState :=
      { h with queues := (enqueueAll h.queues ms none (marshal e)).1 }
      with hst1
    have hms1 : tblGet st1.conversations convID = some ms := hms
    have hsp' : ∀ c' ∈ ms, (qEntryOf st1.queues c'.cid).closeCount = 0 ∧
        (qEntryOf st1.queues c'.cid).buf.length + evs'.length ≤
          sendBufferSize := by
      intro c' hc'
      have hque : st1.queues = (enqueueAll h.queues ms none (marshal e)).1 :=
        rfl
      rw [hque, hentries c' hc']
      obtain ⟨h1, h2⟩ := hsp c' hc'
      simp only [List.length_cons] at h2
      refine ⟨rfl, ?_⟩
      simp only [List.length_append, List.length_cons, List.length_nil]
      omega
    obtain ⟨ih1, ih2, ih3⟩ := ih st1 convID ms hms1 hnd hinj hsp'
    rw [hrun]
    refine ⟨ih1, ih2, fun c' hc' => ?_⟩
    rw [ih3 c' hc']
    have hque : st1.queues = (enqueueAll h.queues ms none (marshal e)).1 :=
      rfl
    rw [hque, hentries c' hc']
    simp [List.append_assoc]

theorem wpDrain_eq (buf : List Nat) : wpDrain buf = buf := by
  cases buf <;> simp [wpDrain, wpBatch]

/-- C6: for every room and every event sequence broadcast serially to it
with no intervening unregistration (no member's queue overflows during the
run, so no drop-and-unregister occurs and membership is unchanged), each
member's outbound queue receives the serialized events appended in exactly
the broadcast order, and the write pump drains the queue in FIFO order, so
the member observes the events in the order broadcast was called. -/
theorem c6_room_fifo (h : HubState) (convID : Nat) (evs : List Nat)
    (ms : List Client) (c : Client)
    (hms : tblGet h.conversations convID = some ms)
    (hnd : ms.Nodup) (hinj : cidInj ms) (hc : c ∈ ms)
    (hsp : ∀ c' ∈ ms, (qEntryOf h.queues c'.cid).closeCount = 0 ∧
      (qEntryOf h.queues c'.cid).buf.length + evs.length ≤ sendBufferSize) :
    (qEntryOf (runBroadcasts h convID evs).queues c.cid).buf =
      (qEntryOf h.queues c.cid).buf ++ evs.map marshal ∧
    wpDrain ((qEntryOf (runBroadcasts h convID evs).queues c.cid).buf) =
      (qEntryOf h.queues c.cid).buf ++ evs.map marshal ∧
    (runBroadcasts h convID evs).conversations = h.conversations := by
  obtain ⟨h1, h2, h3⟩ :=
    runBroadcasts_all_space evs h convID ms hms hnd hinj hsp
  have hbuf : (qEntryOf (runBroadcasts h convID evs).queues c.cid).buf =
      (qEntryOf h.queues c.cid).buf ++ evs.map marshal := by
    rw [h3 c hc]
  exact ⟨hbuf, by rw [hbuf, wpDrain_eq], h2⟩

/-- Witness instantiating `c6_room_fifo`: three events broadcast to room 100
of `wHub2` reach `wClient2` in order. -/
theorem c6_room_fifo_witness :
    (tblGet wHub2.conversations 100 = some [wClient2, wClient] ∧
      ([wClient2, wClient] : List Client).Nodup ∧
      cidInj [wClient2, wClient] ∧
      wClient2 ∈ ([wClient2, wClient] : List Client) ∧
      ∀ c' ∈ ([wClient2, wClient] : List Client),
        (qEntryOf wHub2.queues c'.cid).closeCount = 0 ∧
        (qEntryOf wHub2.queues c'.cid).buf.length +
          ([3, 4, 5] : List Nat).length ≤ sendBufferSize) ∧
    (qEntryOf (runBroadcasts wHub2 100 [3, 4, 5]).queues wClient2.cid).buf =
      (qEntryOf wHub2.queues wClient2.cid).buf ++
        ([3, 4, 5] : List Nat).map marshal ∧
    wpDrain
        ((qEntryOf (runBroadcasts wHub2 100 [3, 4, 5]).queues
          wClient2.cid).buf) =
      (qEntryOf wHub2.queues wClient2.cid).buf ++
        ([3, 4, 5] : List Nat).map marshal ∧
    (runBroadcasts wHub2 100 [3, 4, 5]).conversations =
      wHub2.conversations := by
  have h := c6_room_fifo wHub2 100 [3, 4, 5] [wClient2, wClient] wClient2
    (by decide) (by decide) (by decide) (by decide) (by decide)
  exact ⟨⟨by decide, by decide, by decide, by decide, by decide⟩,
    h.1, h.2.1, h.2.2⟩

end QilinWS
